import Mathlib

/-!
# goCodeAnalyser: the discovery and aggregation engine (`cloc/cloc.go`) and the
# option builder (`cli/cli.go`)

Go values are embedded as follows.

* `map[string]T` is an association list `List (String × T)` with unique keys
  (`mapGet`, `mapSet`); `map[string]struct{}` is a list of keys.
* Signed machine integers are `Int`s reduced with `wrapInt w` after every
  addition (Go's wrap-around arithmetic on `intN`).
* A run-time panic (nil dereference, `regexp.MustCompile` on a bad pattern) is
  the `none` of an outer `Option`; a Go `(value, error)` return is an `Except`.
* Package functions and tables whose declarations live in other files of the
  package (`getExtension`, `Extensions`, `checkFileOptions`, `analyze`, ...) are
  the fields of `Env`.
* The file system seen by `filepath.Walk` is a finite tree (`Node`).
* The goroutines of `Analyze` are embedded twice. `Analyze` runs every
  goroutine as one atomic step, in the order of the association list: it is
  the program under the schedules in which the workers do not interleave, and
  it is exact for `Languages` and `Files`, which no two workers share without
  the mutex. `AnalyzeScheduled` runs the workers access by access under a
  schedule (`Sched`): the grand total, which every worker updates without a
  lock, depends on the schedule, and statements about `Total` are settled
  there.
-/

namespace GoCodeAnalyser

/-! ## Machine integers and maps -/

/-- Two's complement reduction of `x` to a signed integer of `w` bits. -/
def wrapInt (w : Nat) (x : Int) : Int :=
  (x + (2 : Int) ^ w / 2) % (2 : Int) ^ w - (2 : Int) ^ w / 2

/-- Lookup `m[k]` with the comma-ok result as an `Option`. -/
def mapGet {β : Type} : List (String × β) → String → Option β
  | [], _ => none
  | (k, v) :: m, x => if k = x then some v else mapGet m x

/-- Assignment `m[k] = v`: replaces the entry of `k` or adds one. -/
def mapSet {β : Type} : List (String × β) → String → β → List (String × β)
  | [], k, v => [(k, v)]
  | (k', v') :: m, k, v => if k' = k then (k, v) :: m else (k', v') :: mapSet m k v

/-- Keys of a map. -/
def mapKeys {β : Type} (m : List (String × β)) : List String := m.map Prod.fst

/-! ## Data model -/

/-- Per-file record (`cloc.File`). -/
structure File where
  Name : String
  Lang : String
  Size : Int
  Code : Int
  Comments : Int
  Blanks : Int
  Lines : Int
deriving DecidableEq

/-- Language definition and aggregate (`cloc.Language`). -/
structure Language where
  Name : String
  lineComments : List String
  multiLines : List (List String)
  Files : List String
  Size : Int
  Total : Int
  Blanks : Int
  Code : Int
  Comments : Int
  Lines : Int
deriving DecidableEq

/-- Compiled regular expression (`*regexp.Regexp`), kept as its source text. -/
structure Regexp where
  expr : String
deriving DecidableEq

/-- Run options (`cloc.Options`). -/
structure Options where
  ByFile : Bool
  Debug : Bool
  SkipDuplicated : Bool
  SortKey : String
  ExcludeExts : List String
  IncludeLangs : List String
  MatchDir : Option Regexp
  NotMatchDir : Option Regexp
deriving DecidableEq

/-- Modelled from the spec: `NewLanguage` is declared outside `cloc.go`; it
builds a language with the given name and comment syntax, an empty file list
and a zero-initialised aggregate. -/
def NewLanguage (name : String) (lineComments : List String)
    (multiLines : List (List String)) : Language :=
  { Name := name, lineComments := lineComments, multiLines := multiLines,
    Files := [], Size := 0, Total := 0, Blanks := 0, Code := 0, Comments := 0, Lines := 0 }

/-- Modelled from the spec: `NewFile` is declared outside `cloc.go`; it builds
the record of a path and a language name with all counts at zero. -/
def NewFile (path : String) (lang : String) : File :=
  { Name := path, Lang := lang, Size := 0, Code := 0, Comments := 0, Blanks := 0, Lines := 0 }

/-- Package-level functions, tables and integer widths that `cloc.go` and
`cli.go` use but do not declare. -/
structure Env where
  /-- Width of the `Size` fields. -/
  sizeBits : Nat
  /-- Width of the `Blanks`, `Code`, `Comments` and `Lines` fields. -/
  countBits : Nat
  /-- Library `filepath.Join` of a directory and an entry name. -/
  Join : String → String → String
  isVCSDir : String → Bool
  isLanguageAnalysable : String → Bool → Options → Bool
  getExtension : String → Options → Option String
  /-- Table `Extensions`, from file extension to language key. -/
  Extensions : String → Option String
  /-- Reads and may update the cache of seen files. -/
  checkFileOptions : String → String → Options → List String → Bool × List String
  getTotalFiles : List (String × Language) → Nat
  /-- Method `(*File).analyze`: fills the counts of the record. -/
  analyze : File → Language → Options → File

/-- Processor instance (`cloc.Processor`); `langs` is `DefinedLanguages.Langs`,
a map to language pointers. -/
structure Processor where
  langs : String → Option Language
  opts : Options
  paths : List String

/-- Analysis results (`cloc.Result`). -/
structure Result where
  Total : Language
  Files : List (String × File)
  Languages : List (String × Language)
deriving DecidableEq

/-- Function `newSyncMap`: an empty file index; `n` is a capacity hint. -/
def newSyncMap (_n : Nat) : List (String × File) := []

/-- Function `NewProcessor`. -/
def NewProcessor (langs : String → Option Language) (options : Options)
    (paths : List String) : Processor :=
  { langs := langs, opts := options, paths := paths }

/-! ## The file system and `filepath.Walk` -/

mutual
/-- What `os.Lstat` and `readDirNames` find at a path. -/
inductive Node where
  /-- An entry that is not a directory. -/
  | file : Node
  /-- An entry whose `Lstat` fails. -/
  | broken : Node
  /-- A directory; the flag tells whether its names can be read. -/
  | dir : Bool → Entries → Node
/-- Entries of a directory, in the order of `readDirNames`. -/
inductive Entries where
  | nil : Entries
  | cons : String → Node → Entries → Entries
end

/-- Function `Node.isDir` tells directories from other entries. -/
def Node.isDir : Node → Bool
  | .dir _ _ => true
  | _ => false

/-- Function `Node.isPlainFile` holds of readable non-directory entries. -/
def Node.isPlainFile : Node → Bool
  | .file => true
  | _ => false

/-- Error values a walk function can return. -/
inductive WalkErr where
  | nil : WalkErr
  | SkipDir : WalkErr
  | failure : WalkErr
deriving DecidableEq

/-- The `os.FileInfo` of an entry, reduced to `IsDir`. -/
structure FileInfo where
  IsDir : Bool
deriving DecidableEq

/-- Type `filepath.WalkFunc` over a state `σ`; `none` is a panic. -/
abbrev WalkFunc (σ : Type) := String → Option FileInfo → Bool → σ → Option (σ × WalkErr)

mutual
/-- Library function `walk` of `path/filepath`. -/
def walk {σ : Type} (join : String → String → String) (fn : WalkFunc σ) (path : String) :
    Node → σ → Option (σ × WalkErr)
  | .file, s => fn path (some ⟨false⟩) false s
  | .broken, s => fn path none true s
  | .dir readable es, s =>
    match fn path (some ⟨true⟩) (!readable) s with
    | none => none
    | some (s1, err1) =>
      if !readable || err1 ≠ WalkErr.nil then some (s1, err1)
      else walkEntries join fn path es s1
/-- The loop of `walk` over the names of a directory. -/
def walkEntries {σ : Type} (join : String → String → String) (fn : WalkFunc σ) (path : String) :
    Entries → σ → Option (σ × WalkErr)
  | .nil, s => some (s, WalkErr.nil)
  | .cons name node rest, s =>
    match node with
    | .broken =>
      match fn (join path name) none true s with
      | none => none
      | some (s1, err) =>
        if err ≠ WalkErr.nil ∧ err ≠ WalkErr.SkipDir then some (s1, err)
        else walkEntries join fn path rest s1
    | node =>
      match walk join fn (join path name) node s with
      | none => none
      | some (s1, err) =>
        if err ≠ WalkErr.nil ∧ (!node.isDir || err ≠ WalkErr.SkipDir) then some (s1, err)
        else walkEntries join fn path rest s1
end

/-- Library function `filepath.Walk` on the tree found at `root`. -/
def Walk {σ : Type} (join : String → String → String) (fn : WalkFunc σ) (root : String)
    (node : Node) (s : σ) : Option (σ × WalkErr) :=
  match (match node with
         | .broken => fn root none true s
         | node => walk join fn root node s) with
  | none => none
  | some (s1, err) => if err = WalkErr.SkipDir then some (s1, WalkErr.nil) else some (s1, err)

/-! ## Discovery: `initLanguages` -/

/-- Local state of `initLanguages`: the result map and the cache of seen files. -/
structure Discovery where
  result : List (String × Language)
  filesCache : List String
deriving DecidableEq

/-- The closure passed to `filepath.Walk` in `initLanguages`. -/
def walkFn (env : Env) (p : Processor) (vcsInRoot : Bool) : WalkFunc Discovery :=
  fun path info err st =>
    match (if err then some true else info.map FileInfo.IsDir) with
    | none => none
    | some true => some (st, WalkErr.nil)
    | some false =>
      if !env.isLanguageAnalysable path vcsInRoot p.opts then some (st, WalkErr.nil)
      else
        match env.getExtension path p.opts with
        | none => some (st, WalkErr.nil)
        | some ext =>
          match env.Extensions ext with
          | none => some (st, WalkErr.nil)
          | some lang =>
            match env.checkFileOptions path lang p.opts st.filesCache with
            | (false, cache) => some ({ st with filesCache := cache }, WalkErr.nil)
            | (true, cache) =>
              let created : Option (List (String × Language)) :=
                match mapGet st.result lang with
                | some _ => some st.result
                | none =>
                  match p.langs lang with
                  | none => none
                  | some d =>
                    some (mapSet st.result lang
                      (NewLanguage d.Name d.lineComments d.multiLines))
              match created with
              | none => none
              | some result =>
                match mapGet result lang with
                | none => none
                | some l =>
                  some ({ result := mapSet result lang { l with Files := l.Files ++ [path] },
                          filesCache := cache }, WalkErr.nil)

/-- The loop of `initLanguages` over the roots; the error kept is the one of
the last walk. -/
def initRoots (env : Env) (fs : String → Node) (p : Processor) :
    List String → Discovery × WalkErr → Option (Discovery × WalkErr)
  | [], acc => some acc
  | root :: roots, (st, _) =>
    let vcsInRoot := env.isVCSDir root
    match Walk env.Join (walkFn env p vcsInRoot) root (fs root) st with
    | none => none
    | some acc => initRoots env fs p roots acc

/-- Method `Processor.initLanguages`: lists all files and creates the languages. -/
def initLanguages (env : Env) (fs : String → Node) (p : Processor) :
    Option (List (String × Language) × WalkErr) :=
  match initRoots env fs p p.paths ({ result := [], filesCache := [] }, WalkErr.nil) with
  | none => none
  | some (st, err) => some (st.result, err)

/-! ## Aggregation: `Analyze` -/

/-- One iteration of the loop over `language.Files` in a worker. -/
def workerFile (env : Env) (opts : Options) (st : Language × List (String × File))
    (file : String) : Language × List (String × File) :=
  let language := st.1
  let f := env.analyze (NewFile file language.Name) language opts
  ({ language with
      Total := wrapInt 32 (language.Total + 1)
      Size := wrapInt env.sizeBits (language.Size + f.Size)
      Blanks := wrapInt env.countBits (language.Blanks + f.Blanks)
      Code := wrapInt env.countBits (language.Code + f.Code)
      Comments := wrapInt env.countBits (language.Comments + f.Comments)
      Lines := wrapInt env.countBits (language.Lines + f.Lines) },
   mapSet st.2 file f)

/-- The totals block at the end of a worker. -/
def addTotals (env : Env) (language total : Language) : Language :=
  let nbFiles := wrapInt 32 (language.Files.length : Int)
  if language.Files.length ≤ 0 then total
  else
    { total with
      Size := wrapInt env.sizeBits (total.Size + language.Size)
      Total := wrapInt 32 (total.Total + nbFiles)
      Blanks := wrapInt env.countBits (total.Blanks + language.Blanks)
      Comments := wrapInt env.countBits (total.Comments + language.Comments)
      Code := wrapInt env.countBits (total.Code + language.Code)
      Lines := wrapInt env.countBits (total.Lines + language.Lines) }

/-- State shared by the workers: the languages already processed, the grand
total and the file index. -/
structure Shared where
  languages : List (String × Language)
  total : Language
  syncFiles : List (String × File)
deriving DecidableEq

/-- The goroutine started for one language (lines 63 to 99), run as one atomic
step. The additions to `total` of lines 93 to 98 are not atomic in the program
and take no lock; `stepThread` splits them into their loads and stores. -/
def worker (env : Env) (opts : Options) (sh : Shared) (kl : String × Language) : Shared :=
  let r := kl.2.Files.foldl (workerFile env opts) (kl.2, sh.syncFiles)
  { languages := sh.languages ++ [(kl.1, r.1)]
    total := addTotals env r.1 sh.total
    syncFiles := r.2 }

/-- The part of `Analyze` after discovery under a serial schedule: the workers
run one after the other, in the order of the list `languages`. `Languages` and
`Files` are the ones of every run; `Total` is the one of the runs in which the
updates of `total` do not interleave (`AnalyzeScheduled` for the others). -/
def analyzeLanguages (env : Env) (opts : Options) (languages : List (String × Language)) :
    Result :=
  let total := NewLanguage "TOTAL" [] [["", ""]]
  let syncFiles := newSyncMap (env.getTotalFiles languages)
  let sh := languages.foldl (worker env opts)
    { languages := [], total := total, syncFiles := syncFiles }
  { Total := sh.total, Files := sh.syncFiles, Languages := sh.languages }

/-- Method `Processor.Analyze`, with the workers run one after the other
(see `analyzeLanguages`). -/
def Analyze (env : Env) (fs : String → Node) (p : Processor) :
    Option (Except WalkErr Result) :=
  match initLanguages env fs p with
  | none => none
  | some (languages, err) =>
    if err ≠ WalkErr.nil then some (Except.error err)
    else some (Except.ok (analyzeLanguages env p.opts languages))

/-! ## The calls a walk makes -/

/-- One call of the walk function: the path, the file info and whether an
error is passed. -/
structure Visit where
  path : String
  info : Option FileInfo
  err : Bool
deriving DecidableEq

mutual
/-- The calls that `walk` makes on a tree when the walk function returns no
error. -/
def visits (join : String → String → String) (path : String) : Node → List Visit
  | .file => [⟨path, some ⟨false⟩, false⟩]
  | .broken => [⟨path, none, true⟩]
  | .dir readable es =>
    ⟨path, some ⟨true⟩, !readable⟩ :: (if readable then visitsEntries join path es else [])
/-- The calls made for the entries of a directory. -/
def visitsEntries (join : String → String → String) (path : String) : Entries → List Visit
  | .nil => []
  | .cons name node rest => visits join (join path name) node ++ visitsEntries join path rest
end

/-- Left fold of a step that may panic. -/
def foldOpt {α σ : Type} (step : α → σ → Option σ) : List α → σ → Option σ
  | [], s => some s
  | a :: rest, s =>
    match step a s with
    | none => none
    | some s1 => foldOpt step rest s1

/-- A walk function that returns the nil error whenever it returns. -/
def NilOnly {σ : Type} (fn : WalkFunc σ) : Prop :=
  ∀ path info err s s1 e, fn path info err s = some (s1, e) → e = WalkErr.nil

/-- The state change of one call of a walk function. -/
def callOf {σ : Type} (fn : WalkFunc σ) (v : Visit) (s : σ) : Option σ :=
  (fn v.path v.info v.err s).map Prod.fst

/-- The effect of the closure of `initLanguages` on the discovery state for one
call, the flag being `vcsInRoot` of the root walked. -/
def discover (env : Env) (p : Processor) (bv : Bool × Visit) (st : Discovery) :
    Option Discovery :=
  (walkFn env p bv.1 bv.2.path bv.2.info bv.2.err st).map Prod.fst

/-- All calls of the closure during `initLanguages`, root after root. -/
def allVisits (env : Env) (fs : String → Node) : List String → List (Bool × Visit)
  | [] => []
  | root :: roots =>
    (visits env.Join root (fs root)).map (fun v => (env.isVCSDir root, v))
      ++ allVisits env fs roots

/-- The discovery state after all roots are walked. -/
def discovered (env : Env) (fs : String → Node) (p : Processor) : Option Discovery :=
  foldOpt (discover env p) (allVisits env fs p.paths) { result := [], filesCache := [] }

/-- What discovery guarantees of a language `l` stored under key `k`: a zero
aggregate, and only files whose extension the catalogue maps to `k`. -/
def LangOK (env : Env) (p : Processor) (k : String) (l : Language) : Prop :=
  l.Size = 0 ∧ l.Total = 0 ∧ l.Blanks = 0 ∧ l.Code = 0 ∧ l.Comments = 0 ∧ l.Lines = 0 ∧
  ∀ path ∈ l.Files, ∃ ext, env.getExtension path p.opts = some ext ∧ env.Extensions ext = some k

/-- Invariant of the result map of `initLanguages`. -/
def DiscInv (env : Env) (p : Processor) (m : List (String × Language)) : Prop :=
  (mapKeys m).Nodup ∧ ∀ k l, mapGet m k = some l → LangOK env p k l

/-- Sum of a field over the aggregates of a language map. -/
def sumOf (g : Language → Int) (m : List (String × Language)) : Int :=
  (m.map (fun kl => g kl.2)).sum

/-- The grand total is the sum of the aggregates processed so far, field by
field, in the arithmetic of the field. -/
def TotalInv (env : Env) (sh : Shared) : Prop :=
  sh.total.Total = wrapInt 32 (sumOf Language.Total sh.languages) ∧
  sh.total.Total = wrapInt 32 (sumOf (fun l => (l.Files.length : Int)) sh.languages) ∧
  sh.total.Size = wrapInt env.sizeBits (sumOf Language.Size sh.languages) ∧
  sh.total.Lines = wrapInt env.countBits (sumOf Language.Lines sh.languages) ∧
  sh.total.Blanks = wrapInt env.countBits (sumOf Language.Blanks sh.languages) ∧
  sh.total.Comments = wrapInt env.countBits (sumOf Language.Comments sh.languages) ∧
  sh.total.Code = wrapInt env.countBits (sumOf Language.Code sh.languages)

/-- Go's `Blanks + Comments + Code == Lines` on the counters of a file record. -/
def File.lineInv (w : Nat) (f : File) : Prop :=
  wrapInt w (wrapInt w (f.Blanks + f.Comments) + f.Code) = f.Lines

/-- Go's `Blanks + Comments + Code == Lines` on the counters of an aggregate. -/
def Language.lineInv (w : Nat) (l : Language) : Prop :=
  wrapInt w (wrapInt w (l.Blanks + l.Comments) + l.Code) = l.Lines

/-- A language in one of the states its worker gives it: same definition and
file list, counters apart. -/
def SameDef (l l1 : Language) : Prop :=
  l1.Name = l.Name ∧ l1.lineComments = l.lineComments ∧ l1.multiLines = l.multiLines
    ∧ l1.Files = l.Files

/-- The aggregate a worker computes for its language. -/
def aggregate (env : Env) (opts : Options) (l : Language) : Language :=
  (l.Files.foldl (workerFile env opts) (l, [])).1

/-- Invariant of the file index with respect to the languages `done` whose
workers have run: unique keys, the keys are the listed paths, and every entry
is the analysed record of a listed path. -/
def FilesInv (env : Env) (opts : Options) (done : List (String × Language))
    (files : List (String × File)) : Prop :=
  (mapKeys files).Nodup ∧
  (∀ path, path ∈ mapKeys files ↔ ∃ kl ∈ done, path ∈ kl.2.Files) ∧
  (∀ path f, mapGet files path = some f →
    ∃ kl ∈ done, path ∈ kl.2.Files ∧
      ∃ l1, SameDef kl.2 l1 ∧ f = env.analyze (NewFile path kl.2.Name) l1 opts)

/-- The records a worker writes for its language into an empty file index. -/
def fileRecords (env : Env) (opts : Options) (l : Language) : List (String × File) :=
  (l.Files.foldl (workerFile env opts) (l, [])).2

mutual
/-- The tree found at `path` once the regular files at path `target` are
removed. -/
def Node.remove (join : String → String → String) (target : String) (path : String) :
    Node → Node
  | .file => Node.file
  | .broken => Node.broken
  | .dir readable es => Node.dir readable (Entries.remove join target path es)
/-- The entries of the directory at `path` without the regular file `target`. -/
def Entries.remove (join : String → String → String) (target : String) (path : String) :
    Entries → Entries
  | .nil => Entries.nil
  | .cons name node rest =>
    if join path name = target ∧ node.isPlainFile = true then
      Entries.remove join target path rest
    else
      Entries.cons name (Node.remove join target (join path name) node)
        (Entries.remove join target path rest)
end

/-- The file system with the regular file at path `target` removed: its
directory no longer lists it and `Lstat` of it fails. -/
def removeFile (join : String → String → String) (target : String) (fs : String → Node) :
    String → Node :=
  fun root =>
    if root = target ∧ (fs root).isPlainFile = true then Node.broken
    else Node.remove join target root (fs root)

/-- The calls of a walk that remain when the file `target` is removed. -/
def keepVisit (target : String) (v : Visit) : Bool :=
  !decide (v = ⟨target, some ⟨false⟩, false⟩)

/-- A root that does not exist, cannot be examined or is a directory whose
names cannot be read. -/
def Node.unreadable : Node → Bool
  | .broken => true
  | .dir false _ => true
  | _ => false

/-- The result of a run that found no file. -/
def emptyResult : Result :=
  { Total := NewLanguage "TOTAL" [] [["", ""]], Files := [], Languages := [] }

/-- The claim that every aggregate of `Languages` is the sum over the records
of `Files` that carry the name of the language, the file count being their
number. -/
def AggregatesMatchIndex (env : Env) (r : Result) : Prop :=
  ∀ kl ∈ r.Languages,
    let records := (r.Files.filter (fun kf => decide (kf.2.Lang = kl.2.Name))).map Prod.snd
    kl.2.Total = wrapInt 32 (records.length : Int) ∧
    kl.2.Size = wrapInt env.sizeBits (records.map File.Size).sum ∧
    kl.2.Lines = wrapInt env.countBits (records.map File.Lines).sum ∧
    kl.2.Blanks = wrapInt env.countBits (records.map File.Blanks).sum ∧
    kl.2.Comments = wrapInt env.countBits (records.map File.Comments).sum ∧
    kl.2.Code = wrapInt env.countBits (records.map File.Code).sum

/-! ## The goroutines of `Analyze`, access by access

Each worker is the sequence of its accesses to memory, in the order of the
statements of the closure; `total.X += v` is a load of `total.X` followed by a
store, as Go gives no atomicity to it. A schedule is the order in which the
workers take their steps. -/

/-- The counters of a `Language`. -/
inductive Counter where
  | Size | Total | Blanks | Comments | Code | Lines
deriving DecidableEq

/-- Value of a counter. -/
def Language.get (l : Language) : Counter → Int
  | .Size => l.Size
  | .Total => l.Total
  | .Blanks => l.Blanks
  | .Comments => l.Comments
  | .Code => l.Code
  | .Lines => l.Lines

/-- Assignment to a counter. -/
def Language.set (l : Language) (c : Counter) (v : Int) : Language :=
  match c with
  | .Size => { l with Size := v }
  | .Total => { l with Total := v }
  | .Blanks => { l with Blanks := v }
  | .Comments => { l with Comments := v }
  | .Code => { l with Code := v }
  | .Lines => { l with Lines := v }

/-- Width of a counter. -/
def counterBits (env : Env) : Counter → Nat
  | .Size => env.sizeBits
  | .Total => 32
  | _ => env.countBits

/-- The steps of a worker. -/
inductive Action where
  /-- Lines 69 to 79: analysis of a file and update of the worker's language. -/
  | analyse : String → Action
  /-- Line 82, `syncFiles.Lock()`. -/
  | lock : Action
  /-- Line 83, `syncFiles.m[file] = f`. -/
  | storeFile : String → Action
  /-- Line 84, `syncFiles.Unlock()`. -/
  | unlock : Action
  /-- Lines 93 to 98, the read of `total.X` in `total.X += v`. -/
  | loadTotal : Counter → Action
  /-- Lines 93 to 98, the write of `total.X` in `total.X += v`. -/
  | storeTotal : Counter → Action
  /-- The deferred `wg.Done()`. -/
  | done : Action
deriving DecidableEq

/-- The steps of the worker of a language, in program order. -/
def program (l : Language) : List Action :=
  (l.Files.map (fun file =>
      [Action.analyse file, Action.lock, Action.storeFile file, Action.unlock])).flatten
    ++ (if l.Files.length ≤ 0 then []
        else [Action.loadTotal Counter.Size, Action.storeTotal Counter.Size,
              Action.loadTotal Counter.Total, Action.storeTotal Counter.Total,
              Action.loadTotal Counter.Blanks, Action.storeTotal Counter.Blanks,
              Action.loadTotal Counter.Comments, Action.storeTotal Counter.Comments,
              Action.loadTotal Counter.Code, Action.storeTotal Counter.Code,
              Action.loadTotal Counter.Lines, Action.storeTotal Counter.Lines])
    ++ [Action.done]

/-- A worker goroutine: its language, the record in hand, the value loaded
from `total`, and the steps left. -/
structure Thread where
  key : String
  language : Language
  record : Option File
  loaded : Int
  todo : List Action
deriving DecidableEq

/-- State of a run of the workers. -/
structure Sched where
  threads : List Thread
  total : Language
  syncFiles : List (String × File)
  /-- Index of the worker that holds the mutex of the file index. -/
  holder : Option Nat
deriving DecidableEq

/-- The state when all workers are started (line 100). -/
def spawn (env : Env) (languages : List (String × Language)) : Sched :=
  { threads := languages.map (fun kl =>
      { key := kl.1, language := kl.2, record := none, loaded := 0, todo := program kl.2 }),
    total := NewLanguage "TOTAL" [] [["", ""]],
    syncFiles := newSyncMap (env.getTotalFiles languages),
    holder := none }

/-- One step of worker `i`; `none` when the worker has finished or waits for
the mutex. -/
def stepThread (env : Env) (opts : Options) (s : Sched) (i : Nat) : Option Sched :=
  match s.threads.get? i with
  | none => none
  | some t =>
    match t.todo with
    | [] => none
    | a :: rest =>
      match a with
      | .analyse file =>
        let r := workerFile env opts (t.language, []) file
        let f := env.analyze (NewFile file t.language.Name) t.language opts
        let t1 : Thread := { t with language := r.1, record := some f, todo := rest }
        some { s with threads := s.threads.set i t1 }
      | .lock =>
        match s.holder with
        | some _ => none
        | none =>
          let t1 : Thread := { t with todo := rest }
          some { s with threads := s.threads.set i t1, holder := some i }
      | .storeFile file =>
        match t.record with
        | none => none
        | some f =>
          let t1 : Thread := { t with todo := rest }
          some { s with threads := s.threads.set i t1, syncFiles := mapSet s.syncFiles file f }
      | .unlock =>
        let t1 : Thread := { t with todo := rest }
        some { s with threads := s.threads.set i t1, holder := none }
      | .loadTotal c =>
        let t1 : Thread := { t with loaded := s.total.get c, todo := rest }
        some { s with threads := s.threads.set i t1 }
      | .storeTotal c =>
        let v := match c with
          | .Total => wrapInt 32 (t.language.Files.length : Int)
          | c => t.language.get c
        let t1 : Thread := { t with todo := rest }
        some { s with threads := s.threads.set i t1,
                      total := s.total.set c (wrapInt (counterBits env c) (t.loaded + v)) }
      | .done =>
        let t1 : Thread := { t with todo := rest }
        some { s with threads := s.threads.set i t1 }

/-- The run of a schedule, a list of worker indices. -/
def runSchedule (env : Env) (opts : Options) : Sched → List Nat → Option Sched
  | s, [] => some s
  | s, i :: rest =>
    match stepThread env opts s i with
    | none => none
    | some s1 => runSchedule env opts s1 rest

/-- Whether `wg.Wait()` (line 102) can return: every worker has finished. -/
def Sched.joined (s : Sched) : Bool :=
  s.threads.all (fun t => t.todo.isEmpty)

/-- The result built after `wg.Wait()` (lines 104 to 108). -/
def Sched.result (s : Sched) : Option Result :=
  if s.joined then
    some { Total := s.total, Files := s.syncFiles,
           Languages := s.threads.map (fun t => (t.key, t.language)) }
  else none

/-- The next step of worker `i`. -/
def Sched.next (s : Sched) (i : Nat) : Option Action :=
  match s.threads.get? i with
  | none => none
  | some t => t.todo.head?

/-- Worker `i` runs alone for `n` steps. -/
def solo (i n : Nat) : List Nat := List.replicate n i

/-- Method `Processor.Analyze` with its goroutines run under a schedule;
`none` is a panic or a schedule that is not a complete run of the workers. -/
def AnalyzeScheduled (env : Env) (fs : String → Node) (p : Processor) (schedule : List Nat) :
    Option (Except WalkErr Result) :=
  match initLanguages env fs p with
  | none => none
  | some (languages, err) =>
    if err ≠ WalkErr.nil then some (Except.error err)
    else
      match runSchedule env p.opts (spawn env languages) schedule with
      | none => none
      | some s =>
        match s.result with
        | none => none
        | some r => some (Except.ok r)

/-- The claim that every field of `Total` is the sum of the field over the
aggregates of `Languages`, in the arithmetic of the field, the file count
being also the sum of the lengths of the file lists. -/
def TotalIsSumOfLanguages (env : Env) (r : Result) : Prop :=
  r.Total.Total = wrapInt 32 ((r.Languages.map (fun kl => kl.2.Total)).sum) ∧
  r.Total.Total = wrapInt 32 ((r.Languages.map (fun kl => (kl.2.Files.length : Int))).sum) ∧
  r.Total.Size = wrapInt env.sizeBits ((r.Languages.map (fun kl => kl.2.Size)).sum) ∧
  r.Total.Lines = wrapInt env.countBits ((r.Languages.map (fun kl => kl.2.Lines)).sum) ∧
  r.Total.Blanks = wrapInt env.countBits ((r.Languages.map (fun kl => kl.2.Blanks)).sum) ∧
  r.Total.Comments = wrapInt env.countBits ((r.Languages.map (fun kl => kl.2.Comments)).sum) ∧
  r.Total.Code = wrapInt env.countBits ((r.Languages.map (fun kl => kl.2.Code)).sum)

/-! ## The option builder of `cli.go` -/

/-- Command options (`cli.CmdOptions`). -/
structure CmdOptions where
  ByFile : Bool
  Debug : Bool
  SkipDuplicated : Bool
  OutputType : String
  ExcludeExt : String
  IncludeLang : String
  MatchDir : String
  NotMatchDir : String
  SortKey : String
deriving DecidableEq

/-- Parts of package `cloc` and of the library that `cli.go` uses but does not
declare. -/
structure CliEnv where
  CheckSort : String → Bool
  /-- Whether `regexp.Compile` accepts a pattern. -/
  validRegexp : String → Bool
  /-- The registry returned by `NewDefinedLanguages`. -/
  NewDefinedLanguages : String → Option Language

/-- Modelled from the spec: `NewOptions` is declared outside `cli.go`; it
returns options with every flag off, empty sets and no pattern. -/
def NewOptions : Options :=
  { ByFile := false, Debug := false, SkipDuplicated := false, SortKey := "",
    ExcludeExts := [], IncludeLangs := [], MatchDir := none, NotMatchDir := none }

/-- Pieces of a text between occurrences of a separator. -/
def splitChars (sep : Char) : List Char → List (List Char)
  | [] => [[]]
  | c :: cs =>
    if c = sep then [] :: splitChars sep cs
    else
      match splitChars sep cs with
      | [] => [[c]]
      | w :: ws => (c :: w) :: ws

/-- Library `strings.Split` for a separator of one character. -/
def Split (s : String) (sep : Char) : List String :=
  (splitChars sep s.data).map String.mk

/-- Insertion `set[k] = struct{}{}` into a set of strings. -/
def setAdd (set : List String) (k : String) : List String :=
  if k ∈ set then set else set ++ [k]

/-- Library `regexp.MustCompile`: panics on a pattern that does not compile. -/
def MustCompile (cenv : CliEnv) (str : String) : Option Regexp :=
  if cenv.validRegexp str then some ⟨str⟩ else none

/-- Body of the loop over the excluded extensions (lines 132 to 137). -/
def excludeStep (env : Env) (opts : Options) (ext : String) : Options :=
  match env.Extensions ext with
  | some e => { opts with ExcludeExts := setAdd opts.ExcludeExts e }
  | none => opts

/-- Body of the loop over the included languages (lines 150 to 154). -/
def includeStep (languages : String → Option Language) (opts : Options) (lang : String) :
    Options :=
  match languages lang with
  | some _ => { opts with IncludeLangs := setAdd opts.IncludeLangs lang }
  | none => opts

/-- The check of the sort column (lines 120 to 122). -/
def sortChecked (cenv : CliEnv) (cmdOpts : CmdOptions) : CmdOptions :=
  if !cenv.CheckSort cmdOpts.SortKey then { cmdOpts with SortKey := "code" } else cmdOpts

/-- The assignment of `opts.NotMatchDir` (lines 141 to 143). -/
def notMatchDirStep (cenv : CliEnv) (cmdOpts : CmdOptions) (opts : Options) : Option Options :=
  if cmdOpts.NotMatchDir ≠ "" then
    match MustCompile cenv cmdOpts.NotMatchDir with
    | none => none
    | some re => some { opts with NotMatchDir := some re }
  else some opts

/-- The assignment of `opts.MatchDir` (lines 144 to 146). -/
def matchDirStep (cenv : CliEnv) (cmdOpts : CmdOptions) (opts : Options) : Option Options :=
  if cmdOpts.MatchDir ≠ "" then
    match MustCompile cenv cmdOpts.MatchDir with
    | none => none
    | some re => some { opts with MatchDir := some re }
  else some opts

/-- Function `fillOptions` of `cli.go`; `none` is a panic. -/
def fillOptions (cenv : CliEnv) (env : Env) (cmdOpts : CmdOptions)
    (languages : String → Option Language) : Option Options :=
  let cmdOpts : CmdOptions := sortChecked cenv cmdOpts
  let opts : Options := NewOptions
  let opts : Options :=
    { opts with ByFile := cmdOpts.ByFile, Debug := cmdOpts.Debug,
                SkipDuplicated := cmdOpts.SkipDuplicated, SortKey := cmdOpts.SortKey }
  let opts : Options := (Split cmdOpts.ExcludeExt ',').foldl (excludeStep env) opts
  match notMatchDirStep cenv cmdOpts opts with
  | none => none
  | some opts =>
    match matchDirStep cenv cmdOpts opts with
    | none => none
    | some opts => some ((Split cmdOpts.IncludeLang ',').foldl (includeStep languages) opts)

/-- How `rootCommand.Run` ends, as far as the analysis goes. -/
inductive RunOutcome where
  /-- No path given: the usage text is shown. -/
  | usage : RunOutcome
  /-- Function `fillOptions` panicked; nothing after it ran. -/
  | configPanic : RunOutcome
  /-- Method `Analyze` ran, with this outcome. -/
  | analysed : Option (Except WalkErr Result) → RunOutcome

/-- The `Run` function of `rootCommand`, up to the call of `Analyze`. -/
def Run (cenv : CliEnv) (env : Env) (fs : String → Node) (cmdOpts : CmdOptions)
    (args : List String) : RunOutcome :=
  if args.length = 0 then RunOutcome.usage
  else
    let languages := cenv.NewDefinedLanguages
    match fillOptions cenv env cmdOpts languages with
    | none => RunOutcome.configPanic
    | some appOpts =>
      let processor := NewProcessor languages appOpts args
      RunOutcome.analysed (Analyze env fs processor)

/-- The claim that the excluded set holds exactly the listed extensions that
the catalogue knows. -/
def ExcludeExtsAreExtensions (cenv : CliEnv) (env : Env) (cmdOpts : CmdOptions)
    (languages : String → Option Language) : Prop :=
  ∀ opts, fillOptions cenv env cmdOpts languages = some opts →
    ∀ x, x ∈ opts.ExcludeExts ↔
      (x ∈ Split cmdOpts.ExcludeExt ',' ∧ (env.Extensions x).isSome = true)

/-! ## A sample installation

Concrete helper functions, catalogue and file system on which the definitions
above are evaluated. -/

/-- Text after the last dot of the base name of a path, if there is one. -/
def extOf : List Char → Option (List Char)
  | [] => none
  | c :: cs =>
    match extOf cs with
    | some e => some e
    | none => if c = '.' ∧ '/' ∉ cs then some cs else none

/-- Modelled from the spec: `getExtension` is declared outside `cloc.go`; the
sample resolves the extension of a path as the text after the last dot of its
base name and reports not-ok for a name without a dot. -/
def sampleGetExtension (path : String) (_opts : Options) : Option String :=
  (extOf path.data).map String.mk

/-- Modelled from the spec: the table `Extensions` is declared outside
`cloc.go`; the sample catalogue knows Go and C sources. -/
def sampleExtensions (ext : String) : Option String :=
  if ext = "go" then some "Go" else if ext = "c" ∨ ext = "h" then some "C" else none

/-- Modelled from the spec: the registry built by `NewDefinedLanguages`, which
is declared outside `cloc.go`; the sample registry holds Go and C. -/
def sampleLangs (lang : String) : Option Language :=
  if lang = "Go" then some (NewLanguage "Go" ["//"] [["/*", "*/"]])
  else if lang = "C" then some (NewLanguage "C" ["//"] [["/*", "*/"]])
  else none

/-- Whether the text `needle` occurs in `hay`. -/
def containsText (needle hay : List Char) : Bool :=
  hay.tails.any (fun t => needle.isPrefixOf t)

/-- Modelled from the spec: `isVCSDir` is declared outside `cloc.go`; the
sample recognises a `.git` component. -/
def sampleIsVCSDir (path : String) : Bool :=
  containsText "/.git/".data ("/".data ++ path.data ++ "/".data)

/-- Modelled from the spec: `isLanguageAnalysable` is declared outside
`cloc.go`; version-control metadata is rejected unless the root itself is such
a directory, then the directory patterns are applied (the sample matches a
pattern as literal text). -/
def sampleIsLanguageAnalysable (path : String) (vcsInRoot : Bool) (opts : Options) : Bool :=
  (vcsInRoot || !sampleIsVCSDir path)
  && (match opts.NotMatchDir with
      | none => true
      | some r => !containsText r.expr.data path.data)
  && (match opts.MatchDir with
      | none => true
      | some r => containsText r.expr.data path.data)

/-- Modelled from the spec: `checkFileOptions` is declared outside `cloc.go`;
a file is rejected when its language is excluded, when an include set is given
and does not hold its language, or when duplicates are skipped and its
fingerprint was seen (the files of the sample have pairwise different
contents, so the path stands for the fingerprint). -/
def sampleCheckFileOptions (path lang : String) (opts : Options) (cache : List String) :
    Bool × List String :=
  if lang ∈ opts.ExcludeExts then (false, cache)
  else if opts.IncludeLangs ≠ [] ∧ lang ∉ opts.IncludeLangs then (false, cache)
  else if opts.SkipDuplicated then
    (if path ∈ cache then (false, cache) else (true, path :: cache))
  else (true, cache)

/-- Modelled from the spec: `getTotalFiles` is declared outside `cloc.go`; it
counts the files of all languages. -/
def sampleGetTotalFiles (languages : List (String × Language)) : Nat :=
  (languages.map (fun kl => kl.2.Files.length)).sum

/-- Modelled from the spec: `analyze` is declared outside `cloc.go`; in the
sample every Go file reads `"int x = 1;\n\n// c\n"` (scenario A) and every
other file reads `"/* start\nmiddle\nend */\ncode();"` (scenario B). -/
def sampleAnalyze (f : File) (_language : Language) (_opts : Options) : File :=
  if f.Lang = "Go" then { f with Size := 17, Lines := 3, Code := 1, Blanks := 1, Comments := 1 }
  else { f with Size := 30, Lines := 4, Code := 1, Blanks := 0, Comments := 3 }

/-- The sample environment: `int64` sizes and `int32` counters. -/
def sampleEnv : Env :=
  { sizeBits := 64, countBits := 32,
    Join := fun d n => d ++ "/" ++ n,
    isVCSDir := sampleIsVCSDir,
    isLanguageAnalysable := sampleIsLanguageAnalysable,
    getExtension := sampleGetExtension,
    Extensions := sampleExtensions,
    checkFileOptions := sampleCheckFileOptions,
    getTotalFiles := sampleGetTotalFiles,
    analyze := sampleAnalyze }

/-- Options as `NewOptions` followed by `fillOptions` leaves them when no flag
is given. -/
def sampleOptions : Options :=
  { ByFile := false, Debug := false, SkipDuplicated := false, SortKey := "code",
    ExcludeExts := [], IncludeLangs := [], MatchDir := none, NotMatchDir := none }

/-- Sample file system: directory `a` holds `README`, `x.go` and `y.c`;
every other root does not exist. -/
def sampleFs (root : String) : Node :=
  if root = "a" then
    Node.dir true (Entries.cons "README" Node.file
      (Entries.cons "x.go" Node.file (Entries.cons "y.c" Node.file Entries.nil)))
  else Node.broken

/-- The sample processor over the single root `a`. -/
def sampleProcessor : Processor := NewProcessor sampleLangs sampleOptions ["a"]

/-- The aggregate of Go in the sample run. -/
def sampleGo : Language :=
  { Name := "Go", lineComments := ["//"], multiLines := [["/*", "*/"]], Files := ["a/x.go"],
    Size := 17, Total := 1, Blanks := 1, Code := 1, Comments := 1, Lines := 3 }

/-- The aggregate of C in the sample run. -/
def sampleC : Language :=
  { Name := "C", lineComments := ["//"], multiLines := [["/*", "*/"]], Files := ["a/y.c"],
    Size := 30, Total := 1, Blanks := 0, Code := 1, Comments := 3, Lines := 4 }

/-- The result of the sample run. -/
def sampleResult : Result :=
  { Total :=
      { Name := "TOTAL", lineComments := [], multiLines := [["", ""]], Files := [],
        Size := 47, Total := 2, Blanks := 1, Code := 2, Comments := 4, Lines := 7 },
    Files :=
      [("a/x.go", { Name := "a/x.go", Lang := "Go", Size := 17, Code := 1, Comments := 1,
                    Blanks := 1, Lines := 3 }),
       ("a/y.c", { Name := "a/y.c", Lang := "C", Size := 30, Code := 1, Comments := 3,
                   Blanks := 0, Lines := 4 })],
    Languages := [("Go", sampleGo), ("C", sampleC)] }

/-- The languages that discovery lists in the sample run. -/
def sampleLanguages : List (String × Language) :=
  [("Go", { NewLanguage "Go" ["//"] [["/*", "*/"]] with Files := ["a/x.go"] }),
   ("C", { NewLanguage "C" ["//"] [["/*", "*/"]] with Files := ["a/y.c"] })]

/-- The sample processor with the root `a` given twice. -/
def sampleTwice : Processor := NewProcessor sampleLangs sampleOptions ["a", "a"]

/-- The result of the run over the root `a` given twice. -/
def sampleTwiceResult : Result :=
  { Total :=
      { Name := "TOTAL", lineComments := [], multiLines := [["", ""]], Files := [],
        Size := 94, Total := 4, Blanks := 2, Code := 4, Comments := 8, Lines := 14 },
    Files := sampleResult.Files,
    Languages :=
      [("Go", { sampleGo with Files := ["a/x.go", "a/x.go"], Size := 34, Total := 2,
                              Blanks := 2, Code := 2, Comments := 2, Lines := 6 }),
       ("C", { sampleC with Files := ["a/y.c", "a/y.c"], Size := 60, Total := 2,
                            Blanks := 0, Code := 2, Comments := 6, Lines := 8 })] }

/-- A schedule in which both workers read `total.Size` before either writes
it: each worker handles its file, then the two read-modify-writes of
`total.Size` interleave, then each worker runs to its end. -/
def racySchedule : List Nat :=
  solo 0 4 ++ solo 1 4 ++ [0, 1, 0, 1] ++ solo 0 11 ++ solo 1 11

/-- The schedule in which the workers run one after the other. -/
def serialSchedule : List Nat := solo 0 17 ++ solo 1 17

/-- A schedule in which only the two updates of `total.Lines` interleave: each
worker handles its file, then adds to `Size`, `Total`, `Blanks`, `Comments`
and `Code` on its own, then both read `total.Lines` before either writes it. -/
def linesSchedule : List Nat :=
  solo 0 4 ++ solo 1 4 ++ solo 0 10 ++ solo 1 10 ++ [0, 1, 0, 1] ++ [0, 1]

/-- The result of the sample run under `racySchedule`: the size of Go is lost
from `Total`. -/
def racyResult : Result :=
  { sampleResult with Total := { sampleResult.Total with Size := 30 } }

/-- The result of the sample run under `linesSchedule`: the lines of Go are
lost from `Total`. -/
def linesResult : Result :=
  { sampleResult with Total := { sampleResult.Total with Lines := 4 } }

/-- Modelled from the spec: the sort columns that `CheckSort`, declared outside
`cli.go`, accepts are the ones the `--sort` flag lists; the sample regular
expression engine rejects a pattern with an unclosed bracket. -/
def sampleCli : CliEnv :=
  { CheckSort := fun s => s ∈ ["files", "lines", "blanks", "code", "comments", "size"],
    validRegexp := fun s => !('[' ∈ s.data ∧ ']' ∉ s.data),
    NewDefinedLanguages := sampleLangs }

/-- Command options as the flags default them. -/
def sampleCmd : CmdOptions :=
  { ByFile := false, Debug := false, SkipDuplicated := false, OutputType := "",
    ExcludeExt := "", IncludeLang := "", MatchDir := "", NotMatchDir := "", SortKey := "code" }

/-- The flags `--exclude-ext=go`. -/
def sampleExclude : CmdOptions := { sampleCmd with ExcludeExt := "go" }

/-- The flags `--match-dir=[a`, a pattern that does not compile. -/
def sampleBadPattern : CmdOptions := { sampleCmd with MatchDir := "[a" }

/-- The flags `--not-match-dir=vendor`. -/
def sampleGoodPattern : CmdOptions := { sampleCmd with NotMatchDir := "vendor" }

/-! ## Theorems -/

set_option maxRecDepth 100000

theorem wrapInt_emod (w : Nat) (x : Int) : wrapInt w x % (2 : Int) ^ w = x % (2 : Int) ^ w := by
  unfold wrapInt
  rw [Int.sub_emod, Int.emod_emod_of_dvd _ (dvd_refl _), ← Int.sub_emod]
  simp

theorem wrapInt_congr (w : Nat) {a b : Int} (h : a % (2 : Int) ^ w = b % (2 : Int) ^ w) :
    wrapInt w a = wrapInt w b := by
  unfold wrapInt
  rw [Int.add_emod, h, ← Int.add_emod]

theorem wrapInt_add_left (w : Nat) (a b : Int) : wrapInt w (wrapInt w a + b) = wrapInt w (a + b) := by
  apply wrapInt_congr
  rw [Int.add_emod, wrapInt_emod, ← Int.add_emod]

theorem wrapInt_add_right (w : Nat) (a b : Int) : wrapInt w (a + wrapInt w b) = wrapInt w (a + b) := by
  apply wrapInt_congr
  rw [Int.add_emod, wrapInt_emod, ← Int.add_emod]

theorem wrapInt_idem (w : Nat) (a : Int) : wrapInt w (wrapInt w a) = wrapInt w a :=
  wrapInt_congr w (wrapInt_emod w a)

theorem wrapInt_zero (w : Nat) : wrapInt w 0 = 0 := by
  unfold wrapInt
  have h2 : (0 : Int) < (2 : Int) ^ w := by positivity
  have h1 : (0 : Int) ≤ (2 : Int) ^ w / 2 := Int.ediv_nonneg h2.le (by norm_num)
  have h3 : (2 : Int) ^ w / 2 < (2 : Int) ^ w := Int.ediv_lt_of_lt_mul (by norm_num) (by linarith)
  rw [zero_add, Int.emod_eq_of_lt h1 h3]; simp

theorem mapGet_mapSet {β : Type} (m : List (String × β)) (k : String) (v : β) (x : String) :
    mapGet (mapSet m k v) x = if k = x then some v else mapGet m x := by
  induction m with
  | nil => simp [mapSet, mapGet]
  | cons kv m ih =>
    obtain ⟨k', v'⟩ := kv
    by_cases h : k' = k
    · subst h; by_cases hx : k' = x <;> simp [mapSet, mapGet, hx]
    · by_cases hx : k' = x
      · subst hx; simp [mapSet, mapGet, h, Ne.symm h]
      · simp [mapSet, mapGet, h, hx, ih]

theorem mem_mapKeys_mapSet {β : Type} (m : List (String × β)) (k : String) (v : β) (x : String) :
    x ∈ mapKeys (mapSet m k v) ↔ x = k ∨ x ∈ mapKeys m := by
  induction m with
  | nil => simp [mapSet, mapKeys]
  | cons kv m ih =>
    obtain ⟨k', v'⟩ := kv
    by_cases h : k' = k
    · subst h; simp [mapSet, mapKeys]
    · simp only [mapKeys] at ih
      simp [mapSet, mapKeys, h, ih]; tauto

theorem nodup_mapKeys_mapSet {β : Type} (m : List (String × β)) (k : String) (v : β)
    (h : (mapKeys m).Nodup) : (mapKeys (mapSet m k v)).Nodup := by
  induction m with
  | nil => simp [mapSet, mapKeys]
  | cons kv m ih =>
    obtain ⟨k', v'⟩ := kv
    have hm : k' ∉ mapKeys m ∧ (mapKeys m).Nodup := by simpa [mapKeys] using h
    by_cases hk : k' = k
    · subst hk; simpa [mapSet, mapKeys] using h
    · have := ih hm.2
      have hnot : k' ∉ mapKeys (mapSet m k v) := by
        rw [mem_mapKeys_mapSet]; push_neg; exact ⟨hk, hm.1⟩
      simp only [mapSet, hk, if_false, mapKeys, List.map_cons, List.nodup_cons]
      exact ⟨by simpa [mapKeys] using hnot, by simpa [mapKeys] using this⟩

theorem mapGet_eq_none_iff {β : Type} (m : List (String × β)) (x : String) :
    mapGet m x = none ↔ x ∉ mapKeys m := by
  induction m with
  | nil => simp [mapGet, mapKeys]
  | cons kv m ih =>
    obtain ⟨k', v'⟩ := kv
    by_cases h : k' = x
    · subst h; simp [mapGet, mapKeys]
    · simp only [mapKeys] at ih
      simp [mapGet, mapKeys, h, ih, Ne.symm h]

theorem mem_of_mapGet {β : Type} (m : List (String × β)) (x : String) (v : β)
    (h : mapGet m x = some v) : (x, v) ∈ m := by
  induction m with
  | nil => simp [mapGet] at h
  | cons kv m ih =>
    obtain ⟨k', v'⟩ := kv
    by_cases hk : k' = x
    · subst hk; simp [mapGet] at h; simp [h]
    · simp [mapGet, hk] at h; simp [ih h]

theorem mapGet_of_mem {β : Type} (m : List (String × β)) (x : String) (v : β)
    (hn : (mapKeys m).Nodup) (h : (x, v) ∈ m) : mapGet m x = some v := by
  induction m with
  | nil => simp at h
  | cons kv m ih =>
    obtain ⟨k', v'⟩ := kv
    have hm : k' ∉ mapKeys m ∧ (mapKeys m).Nodup := by simpa [mapKeys] using hn
    rcases List.mem_cons.mp h with h | h
    · injection h with h1 h2; subst h1; subst h2; simp [mapGet]
    · have hk : k' ≠ x := by
        rintro rfl
        exact hm.1 (List.mem_map.mpr ⟨(k', v), h, rfl⟩)
      simp [mapGet, hk, ih hm.2 h]

theorem mapSet_mapSet {β : Type} (m : List (String × β)) (k : String) (v v' : β) :
    mapSet (mapSet m k v) k v' = mapSet m k v' := by
  induction m with
  | nil => simp [mapSet]
  | cons kv m ih =>
    obtain ⟨k', w⟩ := kv
    by_cases hk : k' = k
    · simp [mapSet, hk]
    · simp [mapSet, hk, ih]

theorem foldOpt_append {α σ : Type} (step : α → σ → Option σ) (xs ys : List α) (s : σ) :
    foldOpt step (xs ++ ys) s = (foldOpt step xs s).bind (foldOpt step ys) := by
  induction xs generalizing s with
  | nil => simp [foldOpt]
  | cons a xs ih =>
    simp only [List.cons_append, foldOpt]
    cases h : step a s with
    | none => simp
    | some s1 => simp [ih]

theorem fn_eq_of_nilOnly {σ : Type} (fn : WalkFunc σ) (h : NilOnly fn) (path : String)
    (info : Option FileInfo) (err : Bool) (s : σ) :
    fn path info err s = ((fn path info err s).map Prod.fst).map (fun s1 => (s1, WalkErr.nil)) := by
  cases hf : fn path info err s with
  | none => rfl
  | some r =>
    obtain ⟨s1, e⟩ := r
    have := h _ _ _ _ _ _ hf
    subst this; rfl

mutual
theorem walk_eq_fold {σ : Type} (join : String → String → String) (fn : WalkFunc σ)
    (h : NilOnly fn) (path : String) : (node : Node) → (s : σ) →
    walk join fn path node s
      = (foldOpt (callOf fn) (visits join path node) s).map (fun s1 => (s1, WalkErr.nil))
  | .file, s => by
    simp only [walk, visits, foldOpt, callOf]
    rw [fn_eq_of_nilOnly fn h]
    cases fn path (some ⟨false⟩) false s <;> rfl
  | .broken, s => by
    simp only [walk, visits, foldOpt, callOf]
    rw [fn_eq_of_nilOnly fn h]
    cases fn path none true s <;> rfl
  | .dir readable es, s => by
    simp only [walk, visits, foldOpt, callOf]
    rw [fn_eq_of_nilOnly fn h]
    cases hf : fn path (some ⟨true⟩) (!readable) s with
    | none => rfl
    | some r =>
      cases readable with
      | false => simp [foldOpt]
      | true => simp [walkEntries_eq_fold join fn h path es]
theorem walkEntries_eq_fold {σ : Type} (join : String → String → String) (fn : WalkFunc σ)
    (h : NilOnly fn) (path : String) : (es : Entries) → (s : σ) →
    walkEntries join fn path es s
      = (foldOpt (callOf fn) (visitsEntries join path es) s).map (fun s1 => (s1, WalkErr.nil))
  | .nil, s => by simp [walkEntries, visitsEntries, foldOpt]
  | .cons name node rest, s => by
    have ih := walkEntries_eq_fold join fn h path rest
    have ihn := walk_eq_fold join fn h (join path name) node s
    rw [visitsEntries, foldOpt_append]
    cases node with
    | broken =>
      simp only [walkEntries, visits, foldOpt, callOf]
      rw [fn_eq_of_nilOnly fn h]
      cases hf : fn (join path name) none true s with
      | none => rfl
      | some r => simp [ih]
    | file =>
      simp only [walkEntries]
      rw [ihn]
      cases hf : foldOpt (callOf fn) (visits join (join path name) Node.file) s with
      | none => rfl
      | some r => simp [ih]
    | dir rd es2 =>
      simp only [walkEntries]
      rw [ihn]
      cases hf : foldOpt (callOf fn) (visits join (join path name) (Node.dir rd es2)) s with
      | none => rfl
      | some r => simp [ih]
end

theorem Walk_eq_fold {σ : Type} (join : String → String → String) (fn : WalkFunc σ)
    (h : NilOnly fn) (root : String) (node : Node) (s : σ) :
    Walk join fn root node s
      = (foldOpt (callOf fn) (visits join root node) s).map (fun s1 => (s1, WalkErr.nil)) := by
  have hw := walk_eq_fold join fn h root node s
  unfold Walk
  cases node with
  | broken =>
    simp only [walk] at hw
    simp only [hw]
    cases foldOpt (callOf fn) (visits join root Node.broken) s <;> simp
  | file =>
    simp only [hw]
    cases foldOpt (callOf fn) (visits join root Node.file) s <;> simp
  | dir rd es =>
    simp only [hw]
    cases foldOpt (callOf fn) (visits join root (Node.dir rd es)) s <;> simp

theorem walkFn_nilOnly (env : Env) (p : Processor) (vcs : Bool) : NilOnly (walkFn env p vcs) := by
  intro path info err s s1 e h
  unfold walkFn at h
  split at h
  · simp at h
  · simp at h; exact h.2.symm
  · split at h
    · simp at h; exact h.2.symm
    · split at h
      · simp at h; exact h.2.symm
      · split at h
        · simp at h; exact h.2.symm
        · split at h
          · simp at h; exact h.2.symm
          · simp only at h
            split at h
            · simp at h
            · split at h
              · simp at h
              · simp at h; exact h.2.symm

/-- What one call of the closure does to the result map. -/
theorem discover_cases (env : Env) (p : Processor) (bv : Bool × Visit) (st st1 : Discovery)
    (h : discover env p bv st = some st1) :
    st1.result = st.result ∨
    ∃ ext lang l0, bv.2.err = false ∧ bv.2.info = some ⟨false⟩ ∧
      env.getExtension bv.2.path p.opts = some ext ∧ env.Extensions ext = some lang ∧
      (mapGet st.result lang = some l0 ∨
        (mapGet st.result lang = none ∧ ∃ d, p.langs lang = some d ∧
          l0 = NewLanguage d.Name d.lineComments d.multiLines)) ∧
      st1.result = mapSet st.result lang { l0 with Files := l0.Files ++ [bv.2.path] } := by
  obtain ⟨vcs, path, info, err⟩ := bv
  simp only [discover, walkFn] at h
  cases err with
  | true => simp at h; left; rw [← h]
  | false =>
    cases info with
    | none => simp at h
    | some fi =>
      obtain ⟨isd⟩ := fi
      cases isd with
      | true => simp at h; left; rw [← h]
      | false =>
        simp only [Bool.false_eq_true, if_false, Option.map_some'] at h
        split at h
        · simp at h; left; rw [← h]
        · cases hext : env.getExtension path p.opts with
          | none => simp [hext] at h; left; rw [← h]
          | some ext =>
            cases hlang : env.Extensions ext with
            | none => simp [hext, hlang] at h; left; rw [← h]
            | some lang =>
              simp only [hext, hlang] at h
              cases hchk : env.checkFileOptions path lang p.opts st.filesCache with
              | mk ok cache =>
                cases ok with
                | false => simp [hchk] at h; left; rw [← h]
                | true =>
                  simp only [hchk] at h
                  right
                  cases hget : mapGet st.result lang with
                  | some l0 =>
                    simp [hget] at h
                    exact ⟨ext, lang, l0, rfl, rfl, rfl, hlang, Or.inl hget, by rw [← h]⟩
                  | none =>
                    cases hd : p.langs lang with
                    | none => simp [hget, hd] at h
                    | some d =>
                      simp [hget, hd, mapGet_mapSet, mapSet_mapSet] at h
                      exact ⟨ext, lang, _, rfl, rfl, rfl, hlang,
                        Or.inr ⟨hget, d, hd, rfl⟩, by rw [← h]⟩

theorem foldOpt_map {α β σ : Type} (step : β → σ → Option σ) (g : α → β) (xs : List α) (s : σ) :
    foldOpt step (xs.map g) s = foldOpt (fun a => step (g a)) xs s := by
  induction xs generalizing s with
  | nil => rfl
  | cons a xs ih =>
    simp only [List.map_cons, foldOpt]
    cases step (g a) s with
    | none => rfl
    | some s1 => exact ih s1

/-- An invariant of the steps is an invariant of the fold. -/
theorem foldOpt_inv {α σ : Type} (step : α → σ → Option σ) (Inv : σ → Prop)
    (hstep : ∀ a s s1, Inv s → step a s = some s1 → Inv s1) (xs : List α) (s s1 : σ)
    (h0 : Inv s) (h : foldOpt step xs s = some s1) : Inv s1 := by
  induction xs generalizing s with
  | nil => simp [foldOpt] at h; rw [← h]; exact h0
  | cons a xs ih =>
    simp only [foldOpt] at h
    cases hs : step a s with
    | none => simp [hs] at h
    | some s2 =>
      simp only [hs] at h
      exact ih s2 (hstep a s s2 h0 hs) h

theorem initRoots_eq (env : Env) (fs : String → Node) (p : Processor) (roots : List String)
    (st : Discovery) :
    initRoots env fs p roots (st, WalkErr.nil)
      = (foldOpt (discover env p) (allVisits env fs roots) st).map
          (fun s => (s, WalkErr.nil)) := by
  induction roots generalizing st with
  | nil => simp [initRoots, allVisits, foldOpt]
  | cons root roots ih =>
    simp only [initRoots, allVisits, foldOpt_append, foldOpt_map]
    rw [Walk_eq_fold _ _ (walkFn_nilOnly env p _)]
    have hd : (fun a => discover env p (env.isVCSDir root, a))
        = callOf (walkFn env p (env.isVCSDir root)) := rfl
    rw [hd]
    cases foldOpt (callOf (walkFn env p (env.isVCSDir root))) (visits env.Join root (fs root)) st with
    | none => rfl
    | some s1 => simp [ih]

theorem initLanguages_eq (env : Env) (fs : String → Node) (p : Processor) :
    initLanguages env fs p
      = (discovered env fs p).map (fun st => (st.result, WalkErr.nil)) := by
  unfold initLanguages discovered
  rw [initRoots_eq]
  cases foldOpt (discover env p) (allVisits env fs p.paths) { result := [], filesCache := [] } <;> rfl

theorem Analyze_eq (env : Env) (fs : String → Node) (p : Processor) :
    Analyze env fs p
      = (discovered env fs p).map
          (fun st => Except.ok (analyzeLanguages env p.opts st.result)) := by
  unfold Analyze
  rw [initLanguages_eq]
  cases discovered env fs p <;> simp

/-- A result returned by `Analyze` comes from a discovery state. -/
theorem Analyze_ok (env : Env) (fs : String → Node) (p : Processor) (r : Result)
    (h : Analyze env fs p = some (Except.ok r)) :
    ∃ st, discovered env fs p = some st ∧ initLanguages env fs p = some (st.result, WalkErr.nil)
      ∧ r = analyzeLanguages env p.opts st.result := by
  rw [Analyze_eq] at h
  cases hd : discovered env fs p with
  | none => simp [hd] at h
  | some st =>
    simp [hd] at h
    exact ⟨st, rfl, by rw [initLanguages_eq, hd]; rfl, h.symm⟩

theorem discInv_step (env : Env) (p : Processor) (bv : Bool × Visit) (st st1 : Discovery)
    (hinv : DiscInv env p st.result) (h : discover env p bv st = some st1) :
    DiscInv env p st1.result := by
  rcases discover_cases env p bv st st1 h with h1 | ⟨ext, lang, l0, _, _, hext, hlang, hl0, h1⟩
  · rw [h1]; exact hinv
  · rw [h1]
    refine ⟨nodup_mapKeys_mapSet _ _ _ hinv.1, ?_⟩
    intro k l hk
    rw [mapGet_mapSet] at hk
    by_cases hkl : lang = k
    · subst hkl
      simp at hk
      have hl0ok : l0.Size = 0 ∧ l0.Total = 0 ∧ l0.Blanks = 0 ∧ l0.Code = 0 ∧ l0.Comments = 0
          ∧ l0.Lines = 0 ∧ ∀ path ∈ l0.Files, ∃ ext, env.getExtension path p.opts = some ext
            ∧ env.Extensions ext = some lang := by
        rcases hl0 with hg | ⟨_, d, _, hd⟩
        · exact hinv.2 lang l0 hg
        · subst hd; simp [NewLanguage]
      obtain ⟨a1, a2, a3, a4, a5, a6, a7⟩ := hl0ok
      subst hk
      refine ⟨a1, a2, a3, a4, a5, a6, ?_⟩
      intro path hp
      simp at hp
      rcases hp with hp | hp
      · exact a7 path hp
      · subst hp; exact ⟨ext, hext, hlang⟩
    · simp [hkl] at hk
      exact hinv.2 k l hk

theorem discInv_discovered (env : Env) (fs : String → Node) (p : Processor) (st : Discovery)
    (h : discovered env fs p = some st) : DiscInv env p st.result := by
  refine foldOpt_inv (discover env p) (fun s => DiscInv env p s.result)
    (fun a s s1 hs hstep => discInv_step env p a s s1 hs hstep) _ _ _ ?_ h
  exact ⟨by simp [mapKeys], by intro k l hk; simp [mapGet] at hk⟩

theorem foldl_inv {α σ : Type} (step : σ → α → σ) (Inv : σ → Prop) (xs : List α)
    (hstep : ∀ s a, a ∈ xs → Inv s → Inv (step s a)) (s : σ) (h0 : Inv s) :
    Inv (xs.foldl step s) := by
  induction xs generalizing s with
  | nil => exact h0
  | cons a xs ih =>
    simp only [List.foldl_cons]
    exact ih (fun s b hb hs => hstep s b (List.mem_cons_of_mem _ hb) hs) _
      (hstep s a (List.mem_cons_self _ _) h0)

theorem workerFold_sameDef (env : Env) (opts : Options) (paths : List String) (l : Language)
    (files : List (String × File)) :
    SameDef l (paths.foldl (workerFile env opts) (l, files)).1 := by
  refine foldl_inv (workerFile env opts) (fun s => SameDef l s.1) paths ?_ (l, files)
    ⟨rfl, rfl, rfl, rfl⟩
  intro s a _ hs
  exact hs

theorem workerFold_total (env : Env) (opts : Options) (paths : List String) (l : Language)
    (files : List (String × File)) :
    wrapInt 32 (paths.foldl (workerFile env opts) (l, files)).1.Total
      = wrapInt 32 (l.Total + (paths.length : Int)) := by
  induction paths generalizing l files with
  | nil => simp
  | cons a paths ih =>
    simp only [List.foldl_cons, List.length_cons]
    rw [workerFile, ih]
    simp only
    rw [wrapInt_add_left]
    congr 1
    push_cast
    ring

theorem sumOf_append (g : Language → Int) (m : List (String × Language)) (k : String)
    (l : Language) : sumOf g (m ++ [(k, l)]) = sumOf g m + g l := by
  simp [sumOf]

theorem totalInv_worker (env : Env) (opts : Options) (sh : Shared) (kl : String × Language)
    (hz : kl.2.Size = 0 ∧ kl.2.Total = 0 ∧ kl.2.Blanks = 0 ∧ kl.2.Code = 0 ∧ kl.2.Comments = 0
      ∧ kl.2.Lines = 0)
    (hinv : TotalInv env sh) : TotalInv env (worker env opts sh kl) := by
  obtain ⟨k, l⟩ := kl
  obtain ⟨z1, z2, z3, z4, z5, z6⟩ := hz
  simp only at z1 z2 z3 z4 z5 z6
  obtain ⟨i1, i2, i3, i4, i5, i6, i7⟩ := hinv
  have hdef := workerFold_sameDef env opts l.Files l sh.syncFiles
  have htot := workerFold_total env opts l.Files l sh.syncFiles
  rw [z2, zero_add] at htot
  simp only [worker, TotalInv, sumOf_append]
  by_cases hnil : l.Files = []
  · have hr : l.Files.foldl (workerFile env opts) (l, sh.syncFiles) = (l, sh.syncFiles) := by
      rw [hnil]; rfl
    rw [hr]
    simp only [addTotals, hnil, List.length_nil, le_refl, if_true, z1, z2, z3, z4, z5, z6,
      add_zero, Nat.cast_zero]
    exact ⟨i1, i2, i3, i4, i5, i6, i7⟩
  · generalize hr : l.Files.foldl (workerFile env opts) (l, sh.syncFiles) = r at hdef htot
    have hlen : ¬ (r.1.Files.length ≤ 0) := by
      rw [hdef.2.2.2]
      simp [hnil]
    simp only [addTotals, if_neg hlen]
    refine ⟨?_, ?_, ?_, ?_, ?_, ?_, ?_⟩
    · rw [i1, wrapInt_add_left, wrapInt_add_right, hdef.2.2.2,
        ← wrapInt_add_right _ _ r.1.Total, htot, wrapInt_add_right]
    · rw [i2, wrapInt_add_left, wrapInt_add_right, hdef.2.2.2]
    · rw [i3, wrapInt_add_left]
    · rw [i4, wrapInt_add_left]
    · rw [i5, wrapInt_add_left]
    · rw [i6, wrapInt_add_left]
    · rw [i7, wrapInt_add_left]

theorem worker_languages (env : Env) (opts : Options) (ls : List (String × Language))
    (sh : Shared) :
    mapKeys (ls.foldl (worker env opts) sh).languages = mapKeys sh.languages ++ mapKeys ls := by
  induction ls generalizing sh with
  | nil => simp [mapKeys]
  | cons kl ls ih =>
    simp only [List.foldl_cons]
    rw [ih]
    simp [worker, mapKeys]

theorem totalInv_analyze (env : Env) (opts : Options) (ls : List (String × Language))
    (hz : ∀ kl ∈ ls, kl.2.Size = 0 ∧ kl.2.Total = 0 ∧ kl.2.Blanks = 0 ∧ kl.2.Code = 0
      ∧ kl.2.Comments = 0 ∧ kl.2.Lines = 0) (sh : Shared) (hinv : TotalInv env sh) :
    TotalInv env (ls.foldl (worker env opts) sh) :=
  foldl_inv (worker env opts) (TotalInv env) ls
    (fun s a ha hs => totalInv_worker env opts s a (hz a ha) hs) sh hinv

theorem totalInv_init (env : Env) (n : Nat) :
    TotalInv env { languages := [], total := NewLanguage "TOTAL" [] [["", ""]],
                   syncFiles := newSyncMap n } := by
  simp [TotalInv, sumOf, NewLanguage, wrapInt_zero]

theorem discInv_zero (env : Env) (p : Processor) (m : List (String × Language))
    (h : DiscInv env p m) :
    ∀ kl ∈ m, kl.2.Size = 0 ∧ kl.2.Total = 0 ∧ kl.2.Blanks = 0 ∧ kl.2.Code = 0
      ∧ kl.2.Comments = 0 ∧ kl.2.Lines = 0 := by
  intro kl hkl
  obtain ⟨a1, a2, a3, a4, a5, a6, _⟩ := h.2 kl.1 kl.2 (mapGet_of_mem m kl.1 kl.2 h.1 hkl)
  exact ⟨a1, a2, a3, a4, a5, a6⟩

theorem workerFold_fst (env : Env) (opts : Options) (paths : List String) (l : Language)
    (files files1 : List (String × File)) :
    (paths.foldl (workerFile env opts) (l, files)).1
      = (paths.foldl (workerFile env opts) (l, files1)).1 := by
  induction paths generalizing l files files1 with
  | nil => rfl
  | cons a paths ih =>
    simp only [List.foldl_cons]
    exact ih _ _ _

theorem worker_languages_eq (env : Env) (opts : Options) (ls : List (String × Language))
    (sh : Shared) :
    (ls.foldl (worker env opts) sh).languages
      = sh.languages ++ ls.map (fun kl => (kl.1, aggregate env opts kl.2)) := by
  induction ls generalizing sh with
  | nil => simp
  | cons kl ls ih =>
    simp only [List.foldl_cons, List.map_cons]
    rw [ih]
    simp only [worker, aggregate, List.append_assoc, List.singleton_append]
    rw [workerFold_fst env opts kl.2.Files kl.2 sh.syncFiles []]

theorem aggregate_sameDef (env : Env) (opts : Options) (l : Language) :
    SameDef l (aggregate env opts l) :=
  workerFold_sameDef env opts l.Files l []

/-- The line invariant survives one file of a worker. -/
theorem lineInv_workerFile (env : Env) (opts : Options) (st : Language × List (String × File))
    (file : String)
    (hrec : ∀ path name l, (env.analyze (NewFile path name) l opts).lineInv env.countBits)
    (h : st.1.lineInv env.countBits) : (workerFile env opts st file).1.lineInv env.countBits := by
  have hf := hrec file st.1.Name st.1
  unfold File.lineInv at hf
  unfold Language.lineInv at h ⊢
  simp only [workerFile]
  rw [← h, ← hf]
  simp only [wrapInt_add_left, wrapInt_add_right]
  congr 1
  ring

theorem lineInv_aggregate (env : Env) (opts : Options) (l : Language)
    (hrec : ∀ path name l, (env.analyze (NewFile path name) l opts).lineInv env.countBits)
    (h : l.lineInv env.countBits) : (aggregate env opts l).lineInv env.countBits := by
  unfold aggregate
  exact foldl_inv (workerFile env opts) (fun s => s.1.lineInv env.countBits) l.Files
    (fun s a _ hs => lineInv_workerFile env opts s a hrec hs) (l, []) h

theorem lineInv_addTotals (env : Env) (l total : Language) (hl : l.lineInv env.countBits)
    (ht : total.lineInv env.countBits) : (addTotals env l total).lineInv env.countBits := by
  unfold addTotals
  split
  · exact ht
  · unfold Language.lineInv at hl ht ⊢
    simp only
    rw [← hl, ← ht]
    simp only [wrapInt_add_left, wrapInt_add_right]
    congr 1
    ring

theorem lineInv_of_zero (w : Nat) (l : Language)
    (hz : l.Size = 0 ∧ l.Total = 0 ∧ l.Blanks = 0 ∧ l.Code = 0 ∧ l.Comments = 0 ∧ l.Lines = 0) :
    l.lineInv w := by
  obtain ⟨_, _, z3, z4, z5, z6⟩ := hz
  simp [Language.lineInv, z3, z4, z5, z6, wrapInt_zero]

theorem worker_total (env : Env) (opts : Options) (sh : Shared) (kl : String × Language) :
    (worker env opts sh kl).total = addTotals env (aggregate env opts kl.2) sh.total := by
  simp only [worker, aggregate]
  rw [workerFold_fst env opts kl.2.Files kl.2 sh.syncFiles []]

theorem lineInv_total (env : Env) (opts : Options) (ls : List (String × Language))
    (hrec : ∀ path name l, (env.analyze (NewFile path name) l opts).lineInv env.countBits)
    (hz : ∀ kl ∈ ls, kl.2.lineInv env.countBits) (sh : Shared)
    (h : sh.total.lineInv env.countBits) :
    (ls.foldl (worker env opts) sh).total.lineInv env.countBits := by
  refine foldl_inv (worker env opts) (fun s => s.total.lineInv env.countBits) ls ?_ sh h
  intro s a ha hs
  simp only [worker_total]
  exact lineInv_addTotals env _ _ (lineInv_aggregate env opts a.2 hrec (hz a ha)) hs

theorem workerFold_files (env : Env) (opts : Options) (l : Language) (ps : List String)
    (l0 : Language) (files0 : List (String × File)) (hd : SameDef l l0)
    (hn : (mapKeys files0).Nodup) :
    (mapKeys (ps.foldl (workerFile env opts) (l0, files0)).2).Nodup ∧
    (∀ path, path ∈ mapKeys (ps.foldl (workerFile env opts) (l0, files0)).2
      ↔ path ∈ mapKeys files0 ∨ path ∈ ps) ∧
    (∀ path f, mapGet (ps.foldl (workerFile env opts) (l0, files0)).2 path = some f →
      mapGet files0 path = some f ∨
        (path ∈ ps ∧ ∃ l1, SameDef l l1 ∧ f = env.analyze (NewFile path l.Name) l1 opts)) := by
  induction ps generalizing l0 files0 with
  | nil => simpa using hn
  | cons a ps ih =>
    simp only [List.foldl_cons]
    have hstep : workerFile env opts (l0, files0) a
        = ((workerFile env opts (l0, files0) a).1,
            mapSet files0 a (env.analyze (NewFile a l0.Name) l0 opts)) := rfl
    have hd1 : SameDef l (workerFile env opts (l0, files0) a).1 := hd
    rw [hstep]
    obtain ⟨h1, h2, h3⟩ := ih (workerFile env opts (l0, files0) a).1
      (mapSet files0 a (env.analyze (NewFile a l0.Name) l0 opts)) hd1
      (nodup_mapKeys_mapSet _ _ _ hn)
    refine ⟨h1, ?_, ?_⟩
    · intro path
      rw [h2, mem_mapKeys_mapSet]
      simp only [List.mem_cons]
      tauto
    · intro path f hf
      rcases h3 path f hf with h | ⟨hp, l1, hl1, hfe⟩
      · rw [mapGet_mapSet] at h
        by_cases hap : a = path
        · subst hap
          simp at h
          right
          refine ⟨List.mem_cons_self _ _, l0, hd, ?_⟩
          rw [← h, hd.1]
        · simp [hap] at h
          exact Or.inl h
      · exact Or.inr ⟨List.mem_cons_of_mem _ hp, l1, hl1, hfe⟩

theorem filesInv_worker (env : Env) (opts : Options) (done : List (String × Language))
    (sh : Shared) (kl : String × Language) (h : FilesInv env opts done sh.syncFiles) :
    FilesInv env opts (done ++ [kl]) (worker env opts sh kl).syncFiles := by
  obtain ⟨h1, h2, h3⟩ := h
  obtain ⟨g1, g2, g3⟩ := workerFold_files env opts kl.2 kl.2.Files kl.2 sh.syncFiles
    ⟨rfl, rfl, rfl, rfl⟩ h1
  refine ⟨g1, ?_, ?_⟩
  · intro path
    simp only [worker]
    rw [g2, h2]
    constructor
    · rintro (⟨x, hx, hp⟩ | hp)
      · exact ⟨x, List.mem_append_left _ hx, hp⟩
      · exact ⟨kl, by simp, hp⟩
    · rintro ⟨x, hx, hp⟩
      rcases List.mem_append.mp hx with hx | hx
      · exact Or.inl ⟨x, hx, hp⟩
      · simp at hx; subst hx; exact Or.inr hp
  · intro path f hf
    rcases g3 path f hf with h | ⟨hp, l1, hl1, hfe⟩
    · obtain ⟨x, hx, hrest⟩ := h3 path f h
      exact ⟨x, List.mem_append_left _ hx, hrest⟩
    · exact ⟨kl, by simp, hp, l1, hl1, hfe⟩

theorem filesInv_analyze (env : Env) (opts : Options) (ls done : List (String × Language))
    (sh : Shared) (h : FilesInv env opts done sh.syncFiles) :
    FilesInv env opts (done ++ ls) (ls.foldl (worker env opts) sh).syncFiles := by
  induction ls generalizing done sh with
  | nil => simpa using h
  | cons kl ls ih =>
    simp only [List.foldl_cons]
    have := ih (done ++ [kl]) (worker env opts sh kl) (filesInv_worker env opts done sh kl h)
    simpa using this

theorem filesInv_result (env : Env) (opts : Options) (ls : List (String × Language)) :
    FilesInv env opts ls (analyzeLanguages env opts ls).Files := by
  have := filesInv_analyze env opts ls []
    { languages := [], total := NewLanguage "TOTAL" [] [["", ""]],
      syncFiles := newSyncMap (env.getTotalFiles ls) }
    ⟨by simp [newSyncMap, mapKeys], by simp [newSyncMap, mapKeys],
      by intro path f hf; simp [newSyncMap, mapGet] at hf⟩
  simpa [analyzeLanguages] using this

theorem analyzeLanguages_languages (env : Env) (opts : Options)
    (ls : List (String × Language)) :
    (analyzeLanguages env opts ls).Languages
      = ls.map (fun kl => (kl.1, aggregate env opts kl.2)) := by
  simp [analyzeLanguages, worker_languages_eq]

theorem analyzeLanguages_totalInv (env : Env) (opts : Options) (p : Processor)
    (ls : List (String × Language)) (h : DiscInv env p ls) :
    TotalInv env { languages := (analyzeLanguages env opts ls).Languages,
                   total := (analyzeLanguages env opts ls).Total,
                   syncFiles := (analyzeLanguages env opts ls).Files } :=
  totalInv_analyze env opts ls (discInv_zero env p ls h) _ (totalInv_init env _)

/-- A call that passes an error leaves the discovery state alone. -/
theorem discover_err (env : Env) (p : Processor) (vcs : Bool) (path : String)
    (info : Option FileInfo) (st : Discovery) :
    discover env p (vcs, ⟨path, info, true⟩) st = some st := by
  simp [discover, walkFn]

/-- A call for a directory leaves the discovery state alone. -/
theorem discover_dir (env : Env) (p : Processor) (vcs : Bool) (path : String) (err : Bool)
    (st : Discovery) :
    discover env p (vcs, ⟨path, some ⟨true⟩, err⟩) st = some st := by
  cases err <;> simp [discover, walkFn]

/-- A call for a file whose extension is rejected leaves the state alone. -/
theorem discover_rejected (env : Env) (p : Processor) (vcs : Bool) (path : String)
    (st : Discovery) (h : env.getExtension path p.opts = none) :
    discover env p (vcs, ⟨path, some ⟨false⟩, false⟩) st = some st := by
  simp only [discover, walkFn, Bool.false_eq_true, if_false, Option.map_some', h]
  split <;> simp

theorem foldOpt_filter {α σ : Type} (step : α → σ → Option σ) (keep : α → Bool)
    (hno : ∀ a s, keep a = false → step a s = some s) (xs : List α) (s : σ) :
    foldOpt step (xs.filter keep) s = foldOpt step xs s := by
  induction xs generalizing s with
  | nil => rfl
  | cons a xs ih =>
    cases hk : keep a with
    | true =>
      simp only [List.filter_cons, hk, if_true, foldOpt]
      cases step a s with
      | none => rfl
      | some s1 => exact ih s1
    | false =>
      simp only [List.filter_cons, hk, foldOpt, hno a s hk]
      simpa using ih s

mutual
theorem visits_remove (join : String → String → String) (target : String) (path : String) :
    (node : Node) → ¬ (path = target ∧ node.isPlainFile = true) →
    visits join path (Node.remove join target path node)
      = (visits join path node).filter (keepVisit target)
  | .file, h => by
    have hp : path ≠ target := fun hp => h ⟨hp, rfl⟩
    simp [Node.remove, visits, keepVisit, hp]
  | .broken, _ => by simp [Node.remove, visits, keepVisit]
  | .dir readable es, _ => by
    cases readable with
    | false => simp [Node.remove, visits, keepVisit]
    | true =>
      simp [Node.remove, visits, keepVisit, visitsEntries_remove join target path es]
theorem visitsEntries_remove (join : String → String → String) (target : String)
    (path : String) : (es : Entries) →
    visitsEntries join path (Entries.remove join target path es)
      = (visitsEntries join path es).filter (keepVisit target)
  | .nil => by simp [Entries.remove, visitsEntries]
  | .cons name node rest => by
    have ih := visitsEntries_remove join target path rest
    by_cases h : join path name = target ∧ node.isPlainFile = true
    · have hn : node = Node.file := by
        cases node <;> simp [Node.isPlainFile] at h ⊢
      subst hn
      simp [Entries.remove, h, visitsEntries, visits, keepVisit, ih]
    · have := visits_remove join target (join path name) node h
      simp only [Entries.remove, h, if_false, visitsEntries, List.filter_append, this, ih]
end

theorem fold_root_remove (env : Env) (p : Processor) (fs : String → Node) (target root : String)
    (vcs : Bool) (st : Discovery) (hrej : env.getExtension target p.opts = none) :
    foldOpt (discover env p)
        ((visits env.Join root (removeFile env.Join target fs root)).map (fun v => (vcs, v))) st
      = foldOpt (discover env p) ((visits env.Join root (fs root)).map (fun v => (vcs, v))) st := by
  rw [foldOpt_map, foldOpt_map]
  by_cases h : root = target ∧ (fs root).isPlainFile = true
  · obtain ⟨hrt, hpf⟩ := h
    subst hrt
    have hn : fs root = Node.file := by
      cases hfs : fs root <;> simp [hfs, Node.isPlainFile] at hpf ⊢
    simp [removeFile, hn, Node.isPlainFile, visits, foldOpt, discover_err,
      discover_rejected env p vcs root _ hrej]
  · simp only [removeFile, h, if_false]
    rw [visits_remove env.Join target root (fs root) h]
    apply foldOpt_filter
    intro v s hk
    have hv : v = ⟨target, some ⟨false⟩, false⟩ := by simpa [keepVisit] using hk
    subst hv
    exact discover_rejected env p vcs target s hrej

theorem fold_allVisits_remove (env : Env) (p : Processor) (fs : String → Node) (target : String)
    (hrej : env.getExtension target p.opts = none) (roots : List String) (st : Discovery) :
    foldOpt (discover env p) (allVisits env (removeFile env.Join target fs) roots) st
      = foldOpt (discover env p) (allVisits env fs roots) st := by
  induction roots generalizing st with
  | nil => rfl
  | cons root roots ih =>
    simp only [allVisits, foldOpt_append]
    rw [fold_root_remove env p fs target root _ st hrej]
    cases foldOpt (discover env p)
        ((visits env.Join root (fs root)).map (fun v => (env.isVCSDir root, v))) st with
    | none => rfl
    | some s1 => exact ih s1

theorem discovered_remove (env : Env) (p : Processor) (fs : String → Node) (target : String)
    (hrej : env.getExtension target p.opts = none) :
    discovered env (removeFile env.Join target fs) p = discovered env fs p :=
  fold_allVisits_remove env p fs target hrej p.paths _

/-- No language lists a path whose extension is rejected. -/
theorem discInv_not_listed (env : Env) (p : Processor) (m : List (String × Language))
    (h : DiscInv env p m) (target : String) (hrej : env.getExtension target p.opts = none) :
    ∀ kl ∈ m, target ∉ kl.2.Files := by
  intro kl hkl hmem
  obtain ⟨_, _, _, _, _, _, hfiles⟩ := h.2 kl.1 kl.2 (mapGet_of_mem m kl.1 kl.2 h.1 hkl)
  obtain ⟨ext, hext, _⟩ := hfiles target hmem
  rw [hrej] at hext
  cases hext

theorem visits_unreadable (join : String → String → String) (root : String) (node : Node)
    (h : node.unreadable = true) : ∃ info, visits join root node = [⟨root, info, true⟩] := by
  cases node with
  | file => simp [Node.unreadable] at h
  | broken => exact ⟨none, rfl⟩
  | dir rd es =>
    cases rd with
    | true => simp [Node.unreadable] at h
    | false => exact ⟨some ⟨true⟩, by simp [visits]⟩

theorem fold_allVisits_filter (env : Env) (p : Processor) (fs : String → Node)
    (roots : List String) (st : Discovery) :
    foldOpt (discover env p)
        (allVisits env fs (roots.filter (fun root => !(fs root).unreadable))) st
      = foldOpt (discover env p) (allVisits env fs roots) st := by
  induction roots generalizing st with
  | nil => rfl
  | cons root roots ih =>
    cases hu : (fs root).unreadable with
    | true =>
      obtain ⟨info, hv⟩ := visits_unreadable env.Join root (fs root) hu
      simp only [List.filter_cons, hu, Bool.not_true, Bool.false_eq_true, if_false, allVisits,
        hv, List.map_cons, List.map_nil, List.singleton_append, foldOpt, discover_err]
      exact ih st
    | false =>
      simp only [List.filter_cons, hu, Bool.not_false, if_true, allVisits, foldOpt_append]
      cases foldOpt (discover env p)
          ((visits env.Join root (fs root)).map (fun v => (env.isVCSDir root, v))) st with
      | none => rfl
      | some s1 => exact ih s1

mutual
theorem visits_wellFormed (join : String → String → String) (path : String) :
    (node : Node) → ∀ v ∈ visits join path node, v.err = true ∨ v.info.isSome = true
  | .file => by simp [visits]
  | .broken => by simp [visits]
  | .dir readable es => by
    cases readable with
    | false => simp [visits]
    | true =>
      intro v hv
      simp only [visits, if_true, List.mem_cons] at hv
      rcases hv with hv | hv
      · subst hv; simp
      · exact visitsEntries_wellFormed join path es v hv
theorem visitsEntries_wellFormed (join : String → String → String) (path : String) :
    (es : Entries) → ∀ v ∈ visitsEntries join path es, v.err = true ∨ v.info.isSome = true
  | .nil => by simp [visitsEntries]
  | .cons name node rest => by
    intro v hv
    simp only [visitsEntries, List.mem_append] at hv
    rcases hv with hv | hv
    · exact visits_wellFormed join (join path name) node v hv
    · exact visitsEntries_wellFormed join path rest v hv
end

theorem allVisits_wellFormed (env : Env) (fs : String → Node) (roots : List String) :
    ∀ bv ∈ allVisits env fs roots, bv.2.err = true ∨ bv.2.info.isSome = true := by
  induction roots with
  | nil => simp [allVisits]
  | cons root roots ih =>
    intro bv hbv
    simp only [allVisits, List.mem_append, List.mem_map] at hbv
    rcases hbv with ⟨v, hv, rfl⟩ | hbv
    · exact visits_wellFormed env.Join root (fs root) v hv
    · exact ih bv hbv

/-- With a registry that holds every language of the catalogue, a call of the
closure does not panic. -/
theorem discover_isSome (env : Env) (p : Processor)
    (hcat : ∀ ext lang, env.Extensions ext = some lang → (p.langs lang).isSome = true)
    (bv : Bool × Visit) (hv : bv.2.err = true ∨ bv.2.info.isSome = true) (st : Discovery) :
    ∃ st1, discover env p bv st = some st1 := by
  obtain ⟨vcs, path, info, err⟩ := bv
  cases err with
  | true => exact ⟨st, discover_err env p vcs path info st⟩
  | false =>
    cases info with
    | none => simp at hv
    | some fi =>
      obtain ⟨isd⟩ := fi
      cases isd with
      | true => exact ⟨st, discover_dir env p vcs path false st⟩
      | false =>
        simp only [discover, walkFn, Bool.false_eq_true, if_false, Option.map_some']
        split
        · simp
        · cases hext : env.getExtension path p.opts with
          | none => simp
          | some ext =>
            cases hlang : env.Extensions ext with
            | none => simp [hlang]
            | some lang =>
              cases hchk : env.checkFileOptions path lang p.opts st.filesCache with
              | mk ok cache =>
                cases ok with
                | false => simp [hlang, hchk]
                | true =>
                  cases hget : mapGet st.result lang with
                  | some l0 => simp [hlang, hchk, hget]
                  | none =>
                    have := hcat ext lang hlang
                    cases hd : p.langs lang with
                    | none => simp [hd] at this
                    | some d => simp [hlang, hchk, hget, hd, mapGet_mapSet]

theorem foldOpt_isSome {α σ : Type} (step : α → σ → Option σ) (xs : List α)
    (h : ∀ a ∈ xs, ∀ s, ∃ s1, step a s = some s1) (s : σ) :
    ∃ s1, foldOpt step xs s = some s1 := by
  induction xs generalizing s with
  | nil => exact ⟨s, rfl⟩
  | cons a xs ih =>
    obtain ⟨s1, hs1⟩ := h a (List.mem_cons_self _ _) s
    simp only [foldOpt, hs1]
    exact ih (fun b hb => h b (List.mem_cons_of_mem _ hb)) s1

theorem discovered_isSome (env : Env) (fs : String → Node) (p : Processor)
    (hcat : ∀ ext lang, env.Extensions ext = some lang → (p.langs lang).isSome = true) :
    ∃ st, discovered env fs p = some st :=
  foldOpt_isSome (discover env p) _
    (fun bv hbv s => discover_isSome env p hcat bv (allVisits_wellFormed env fs p.paths bv hbv) s) _

theorem addTotals_comm (env : Env) (l1 l2 total : Language) :
    addTotals env l1 (addTotals env l2 total) = addTotals env l2 (addTotals env l1 total) := by
  unfold addTotals
  by_cases h1 : l1.Files.length ≤ 0 <;> by_cases h2 : l2.Files.length ≤ 0
  · simp [h1, h2]
  · simp [h1, h2]
  · simp [h1, h2]
  · simp only [h1, h2, if_false, wrapInt_add_left, wrapInt_add_right]
    congr 1 <;> (congr 1; ring)

theorem worker_total_fold (env : Env) (opts : Options) (ls : List (String × Language))
    (sh : Shared) :
    (ls.foldl (worker env opts) sh).total
      = ls.foldl (fun t kl => addTotals env (aggregate env opts kl.2) t) sh.total := by
  induction ls generalizing sh with
  | nil => rfl
  | cons kl ls ih =>
    simp only [List.foldl_cons]
    rw [ih, worker_total]

theorem total_perm (env : Env) (opts : Options) (l1 l2 : List (String × Language))
    (h : l1.Perm l2) :
    (analyzeLanguages env opts l1).Total = (analyzeLanguages env opts l2).Total := by
  simp only [analyzeLanguages, worker_total_fold]
  exact h.foldl_eq' (fun x _ y _ z => addTotals_comm env _ _ z) _

theorem mapGet_perm {β : Type} (l1 l2 : List (String × β)) (h : l1.Perm l2)
    (hn : (mapKeys l1).Nodup) (k : String) : mapGet l1 k = mapGet l2 k := by
  have hn2 : (mapKeys l2).Nodup := (h.map Prod.fst).nodup_iff.mp hn
  cases h1 : mapGet l1 k with
  | none =>
    have hk := (mapGet_eq_none_iff l1 k).mp h1
    have hk2 : k ∉ mapKeys l2 := fun hmem => hk ((h.map Prod.fst).mem_iff.mpr hmem)
    exact ((mapGet_eq_none_iff l2 k).mpr hk2).symm
  | some v =>
    have hmem := mem_of_mapGet l1 k v h1
    exact (mapGet_of_mem l2 k v hn2 (h.mem_iff.mp hmem)).symm

theorem languages_perm (env : Env) (opts : Options) (l1 l2 : List (String × Language))
    (h : l1.Perm l2) (hn : (mapKeys l1).Nodup) (k : String) :
    mapGet (analyzeLanguages env opts l1).Languages k
      = mapGet (analyzeLanguages env opts l2).Languages k := by
  rw [analyzeLanguages_languages, analyzeLanguages_languages]
  apply mapGet_perm _ _ (h.map _)
  simpa [mapKeys, Function.comp_def] using hn

/-- A path listed by a worker gets the same record whatever the file index held
before; a path not listed keeps its entry. -/
theorem workerFold_lookup (env : Env) (opts : Options) (ps : List String) (l0 : Language)
    (files0 files1 : List (String × File)) (path : String) :
    mapGet (ps.foldl (workerFile env opts) (l0, files0)).2 path
      = if path ∈ ps then mapGet (ps.foldl (workerFile env opts) (l0, files1)).2 path
        else mapGet files0 path := by
  induction ps generalizing l0 files0 files1 with
  | nil => simp
  | cons a ps ih =>
    simp only [List.foldl_cons]
    have hstep : ∀ files, workerFile env opts (l0, files) a
        = ((workerFile env opts (l0, []) a).1,
            mapSet files a (env.analyze (NewFile a l0.Name) l0 opts)) := fun _ => rfl
    rw [hstep files0, hstep files1]
    by_cases hp : path ∈ ps
    · rw [ih _ _ (mapSet files1 a (env.analyze (NewFile a l0.Name) l0 opts))]
      simp [hp]
    · rw [ih _ _ (mapSet files1 a (env.analyze (NewFile a l0.Name) l0 opts)), if_neg hp]
      rw [ih _ (mapSet files1 a (env.analyze (NewFile a l0.Name) l0 opts))
        (mapSet files1 a (env.analyze (NewFile a l0.Name) l0 opts)), if_neg hp]
      rw [mapGet_mapSet, mapGet_mapSet]
      by_cases hap : a = path
      · subst hap; simp
      · have : path ≠ a := fun h => hap h.symm
        simp [hap, hp, this]

theorem worker_lookup (env : Env) (opts : Options) (sh : Shared) (kl : String × Language)
    (path : String) :
    mapGet (worker env opts sh kl).syncFiles path
      = if path ∈ kl.2.Files then mapGet (fileRecords env opts kl.2) path
        else mapGet sh.syncFiles path :=
  workerFold_lookup env opts kl.2.Files kl.2 sh.syncFiles [] path

theorem files_lookup_none (env : Env) (opts : Options) (ls : List (String × Language))
    (path : String) (h : ∀ kl ∈ ls, path ∉ kl.2.Files) (sh : Shared) :
    mapGet (ls.foldl (worker env opts) sh).syncFiles path = mapGet sh.syncFiles path := by
  induction ls generalizing sh with
  | nil => rfl
  | cons x ls ih =>
    simp only [List.foldl_cons]
    rw [ih (fun kl hkl => h kl (List.mem_cons_of_mem _ hkl)), worker_lookup,
      if_neg (h x (List.mem_cons_self _ _))]

theorem files_lookup_some (env : Env) (opts : Options) (ls : List (String × Language))
    (path : String)
    (hdisj : ∀ kl ∈ ls, ∀ kl1 ∈ ls, path ∈ kl.2.Files → path ∈ kl1.2.Files → kl = kl1)
    (kl : String × Language) (hkl : kl ∈ ls) (hp : path ∈ kl.2.Files) (sh : Shared) :
    mapGet (ls.foldl (worker env opts) sh).syncFiles path
      = mapGet (fileRecords env opts kl.2) path := by
  induction ls generalizing sh with
  | nil => simp at hkl
  | cons x ls ih =>
    simp only [List.foldl_cons]
    by_cases hex : ∃ kl1 ∈ ls, path ∈ kl1.2.Files
    · obtain ⟨kl1, hkl1, hp1⟩ := hex
      have heq : kl = kl1 := hdisj kl hkl kl1 (List.mem_cons_of_mem _ hkl1) hp hp1
      subst heq
      exact ih (fun a ha b hb => hdisj a (List.mem_cons_of_mem _ ha) b (List.mem_cons_of_mem _ hb))
        hkl1 _
    · have hno : ∀ kl1 ∈ ls, path ∉ kl1.2.Files := fun kl1 h1 h2 => hex ⟨kl1, h1, h2⟩
      have hx : kl = x := by
        rcases List.mem_cons.mp hkl with h | h
        · exact h
        · exact absurd hp (hno kl h)
      subst hx
      rw [files_lookup_none env opts ls path hno, worker_lookup, if_pos hp]

/-- Discovery lists a path under one language only. -/
theorem discInv_disjoint (env : Env) (p : Processor) (m : List (String × Language))
    (h : DiscInv env p m) (path : String) :
    ∀ kl ∈ m, ∀ kl1 ∈ m, path ∈ kl.2.Files → path ∈ kl1.2.Files → kl = kl1 := by
  intro kl hkl kl1 hkl1 hp hp1
  have g := mapGet_of_mem m kl.1 kl.2 h.1 hkl
  have g1 := mapGet_of_mem m kl1.1 kl1.2 h.1 hkl1
  obtain ⟨_, _, _, _, _, _, hf⟩ := h.2 kl.1 kl.2 g
  obtain ⟨_, _, _, _, _, _, hf1⟩ := h.2 kl1.1 kl1.2 g1
  obtain ⟨ext, he, hl⟩ := hf path hp
  obtain ⟨ext1, he1, hl1⟩ := hf1 path hp1
  rw [he] at he1
  injection he1 with he1
  subst he1
  rw [hl] at hl1
  injection hl1 with hk
  rw [← hk] at g1
  rw [g] at g1
  injection g1 with hv
  exact Prod.ext hk hv

theorem files_perm (env : Env) (opts : Options) (l1 l2 : List (String × Language))
    (h : l1.Perm l2)
    (hdisj : ∀ path, ∀ kl ∈ l1, ∀ kl1 ∈ l1, path ∈ kl.2.Files → path ∈ kl1.2.Files → kl = kl1)
    (path : String) :
    mapGet (analyzeLanguages env opts l1).Files path
      = mapGet (analyzeLanguages env opts l2).Files path := by
  simp only [analyzeLanguages]
  by_cases hex : ∃ kl ∈ l1, path ∈ kl.2.Files
  · obtain ⟨kl, hkl, hp⟩ := hex
    rw [files_lookup_some env opts l1 path (hdisj path) kl hkl hp,
      files_lookup_some env opts l2 path
        (fun a ha b hb => hdisj path a (h.mem_iff.mpr ha) b (h.mem_iff.mpr hb))
        kl (h.mem_iff.mp hkl) hp]
  · have hno : ∀ kl ∈ l1, path ∉ kl.2.Files := fun kl h1 h2 => hex ⟨kl, h1, h2⟩
    rw [files_lookup_none env opts l1 path hno,
      files_lookup_none env opts l2 path (fun kl hkl => hno kl (h.mem_iff.mpr hkl))]
    rfl

theorem mem_setAdd (set : List String) (k x : String) :
    x ∈ setAdd set k ↔ x ∈ set ∨ x = k := by
  unfold setAdd
  split
  · constructor
    · exact Or.inl
    · rintro (h | h)
      · exact h
      · subst h; assumption
  · simp

theorem excludeFold_patterns (env : Env) (exts : List String) (opts : Options) :
    (exts.foldl (excludeStep env) opts).MatchDir = opts.MatchDir ∧
    (exts.foldl (excludeStep env) opts).NotMatchDir = opts.NotMatchDir := by
  induction exts generalizing opts with
  | nil => exact ⟨rfl, rfl⟩
  | cons a exts ih =>
    simp only [List.foldl_cons]
    rw [(ih _).1, (ih _).2]
    unfold excludeStep
    split <;> exact ⟨rfl, rfl⟩

theorem excludeFold_mem (env : Env) (exts : List String) (opts : Options) (x : String) :
    x ∈ (exts.foldl (excludeStep env) opts).ExcludeExts
      ↔ x ∈ opts.ExcludeExts ∨ ∃ ext ∈ exts, env.Extensions ext = some x := by
  induction exts generalizing opts with
  | nil => simp
  | cons a exts ih =>
    simp only [List.foldl_cons]
    rw [ih]
    unfold excludeStep
    cases ha : env.Extensions a with
    | none =>
      simp only [List.mem_cons, exists_eq_or_imp, ha]
      simp
    | some e =>
      simp only [mem_setAdd, List.mem_cons, exists_eq_or_imp, ha, Option.some.injEq]
      constructor
      · rintro ((h | h) | h)
        · exact Or.inl h
        · exact Or.inr (Or.inl h.symm)
        · exact Or.inr (Or.inr h)
      · rintro (h | h | h)
        · exact Or.inl (Or.inl h)
        · exact Or.inl (Or.inr h.symm)
        · exact Or.inr h

theorem includeFold_keeps (languages : String → Option Language) (names : List String)
    (opts : Options) :
    (names.foldl (includeStep languages) opts).MatchDir = opts.MatchDir ∧
    (names.foldl (includeStep languages) opts).NotMatchDir = opts.NotMatchDir ∧
    (names.foldl (includeStep languages) opts).ExcludeExts = opts.ExcludeExts := by
  induction names generalizing opts with
  | nil => exact ⟨rfl, rfl, rfl⟩
  | cons a names ih =>
    simp only [List.foldl_cons]
    rw [(ih _).1, (ih _).2.1, (ih _).2.2]
    unfold includeStep
    split <;> exact ⟨rfl, rfl, rfl⟩

theorem sortChecked_fields (cenv : CliEnv) (c : CmdOptions) :
    (sortChecked cenv c).MatchDir = c.MatchDir ∧ (sortChecked cenv c).NotMatchDir = c.NotMatchDir
      ∧ (sortChecked cenv c).ExcludeExt = c.ExcludeExt
      ∧ (sortChecked cenv c).IncludeLang = c.IncludeLang := by
  unfold sortChecked
  split <;> exact ⟨rfl, rfl, rfl, rfl⟩

/-- When both patterns are empty or valid, the two assignments succeed and
keep everything but the pattern fields. -/
theorem patterns_ok (cenv : CliEnv) (c : CmdOptions) (opts : Options)
    (hn : c.NotMatchDir = "" ∨ cenv.validRegexp c.NotMatchDir = true)
    (hm : c.MatchDir = "" ∨ cenv.validRegexp c.MatchDir = true) :
    ∃ o1 o2, notMatchDirStep cenv c opts = some o1 ∧ matchDirStep cenv c o1 = some o2 ∧
      o2.ExcludeExts = opts.ExcludeExts ∧
      o2.NotMatchDir = (if c.NotMatchDir = "" then opts.NotMatchDir else some ⟨c.NotMatchDir⟩) ∧
      o2.MatchDir = (if c.MatchDir = "" then opts.MatchDir else some ⟨c.MatchDir⟩) := by
  unfold notMatchDirStep matchDirStep MustCompile
  by_cases h1 : c.NotMatchDir = "" <;> by_cases h2 : c.MatchDir = ""
  · simp [h1, h2]
  · have hv : cenv.validRegexp c.MatchDir = true := hm.resolve_left h2
    simp [h1, h2, hv]
  · have hv : cenv.validRegexp c.NotMatchDir = true := hn.resolve_left h1
    simp [h1, h2, hv]
  · have hv : cenv.validRegexp c.MatchDir = true := hm.resolve_left h2
    have hv1 : cenv.validRegexp c.NotMatchDir = true := hn.resolve_left h1
    simp [h1, h2, hv, hv1]

/-- When a pattern is not empty and not valid, one of the two assignments
panics. -/
theorem patterns_panic (cenv : CliEnv) (c : CmdOptions) (opts : Options)
    (h : (c.NotMatchDir ≠ "" ∧ cenv.validRegexp c.NotMatchDir = false)
      ∨ (c.MatchDir ≠ "" ∧ cenv.validRegexp c.MatchDir = false)) :
    notMatchDirStep cenv c opts = none
      ∨ ∃ o1, notMatchDirStep cenv c opts = some o1 ∧ matchDirStep cenv c o1 = none := by
  unfold notMatchDirStep matchDirStep MustCompile
  rcases h with ⟨h1, hv⟩ | ⟨h2, hv⟩
  · left; simp [h1, hv]
  · by_cases h1 : c.NotMatchDir = ""
    · right; simp [h1, h2, hv]
    · cases hv1 : cenv.validRegexp c.NotMatchDir with
      | false => left; simp [h1]
      | true => right; simp [h1, h2, hv]

/-- When the workers run one after the other, every field of `Total` is the
sum of the field over the aggregates of `Languages`, in the arithmetic of the
field (`int32` for the file count), and the file count is the sum of the
lengths of the file lists. -/
theorem serial_total_eq_sum (env : Env) (fs : String → Node) (p : Processor) (r : Result)
    (h : Analyze env fs p = some (Except.ok r)) : TotalIsSumOfLanguages env r := by
  obtain ⟨st, hst, _, hr⟩ := Analyze_ok env fs p r h
  have := analyzeLanguages_totalInv env p.opts p st.result (discInv_discovered env fs p st hst)
  rw [← hr] at this
  exact this

/-- C2, at two languages of one file each: under the schedule in which both
workers read `total.Size` before either writes it, `Analyze` returns a result
whose `Total.Size` is 30 while the aggregates of `Languages` have the sizes 17
and 30, so `Total` is not the sum over `Languages`; under the serial schedule
the same input gives the sum, 47. -/
theorem Analyze_total_not_sum_under_race :
    AnalyzeScheduled sampleEnv sampleFs sampleProcessor serialSchedule
      = some (Except.ok sampleResult) ∧
    TotalIsSumOfLanguages sampleEnv sampleResult ∧
    AnalyzeScheduled sampleEnv sampleFs sampleProcessor racySchedule
      = some (Except.ok racyResult) ∧
    racyResult.Total.Size = 30 ∧
    racyResult.Languages.map (fun kl => kl.2.Size) = [17, 30] ∧
    ¬ TotalIsSumOfLanguages sampleEnv racyResult := by
  refine ⟨by rfl, serial_total_eq_sum sampleEnv sampleFs sampleProcessor sampleResult (by rfl),
    by rfl, by rfl, by rfl, ?_⟩
  intro h
  have := h.2.2.1
  revert this
  decide

/-- When the workers run one after the other and every record that `analyze`
makes of a new file satisfies `Blanks + Comments + Code == Lines` in the
arithmetic of the counters, every aggregate of `Languages` and `Total` satisfy
it. -/
theorem serial_lineInv (env : Env) (fs : String → Node) (p : Processor) (r : Result)
    (hrec : ∀ path name l, (env.analyze (NewFile path name) l p.opts).lineInv env.countBits)
    (h : Analyze env fs p = some (Except.ok r)) :
    (∀ kl ∈ r.Languages, kl.2.lineInv env.countBits) ∧ r.Total.lineInv env.countBits := by
  obtain ⟨st, hst, _, hr⟩ := Analyze_ok env fs p r h
  have hinv := discInv_discovered env fs p st hst
  have hz := discInv_zero env p st.result hinv
  subst hr
  constructor
  · intro kl hkl
    rw [analyzeLanguages_languages] at hkl
    obtain ⟨x, hx, rfl⟩ := List.mem_map.mp hkl
    exact lineInv_aggregate env p.opts x.2 hrec (lineInv_of_zero _ _ (hz x hx))
  · exact lineInv_total env p.opts st.result hrec
      (fun kl hkl => lineInv_of_zero _ _ (hz kl hkl)) _
      (lineInv_of_zero _ _ ⟨rfl, rfl, rfl, rfl, rfl, rfl⟩)

theorem sampleAnalyze_lineInv (f : File) (l : Language) (o : Options) :
    (sampleEnv.analyze f l o).lineInv sampleEnv.countBits := by
  show (sampleAnalyze f l o).lineInv 32
  unfold sampleAnalyze
  split <;> (simp only [File.lineInv]; decide)

/-- C10, at two languages of one file each: every record that `analyze`
produces satisfies `Blanks + Comments + Code == Lines`, and under the schedule
in which only the two updates of `total.Lines` interleave `Analyze` returns a
result in which every record of `Files` and every aggregate of `Languages`
satisfy it while `Total` has `Blanks + Comments + Code` 7 and `Lines` 4. -/
theorem Analyze_total_lineInv_lost_under_race :
    (∀ f l o, (sampleEnv.analyze f l o).lineInv sampleEnv.countBits) ∧
    AnalyzeScheduled sampleEnv sampleFs sampleProcessor linesSchedule
      = some (Except.ok linesResult) ∧
    (∀ kf ∈ linesResult.Files, kf.2.lineInv sampleEnv.countBits) ∧
    (∀ kl ∈ linesResult.Languages, kl.2.lineInv sampleEnv.countBits) ∧
    (linesResult.Total.Blanks, linesResult.Total.Comments, linesResult.Total.Code,
      linesResult.Total.Lines) = (1, 4, 2, 4) ∧
    ¬ linesResult.Total.lineInv sampleEnv.countBits := by
  refine ⟨sampleAnalyze_lineInv, by rfl, ?_, ?_, by rfl, ?_⟩
  · unfold File.lineInv
    decide
  · exact (serial_lineInv sampleEnv sampleFs sampleProcessor sampleResult
      (fun path name l => sampleAnalyze_lineInv _ l _) (by rfl)).1
  · unfold Language.lineInv
    decide

/-- C3: the keys of `Result.Files` are exactly the paths that `initLanguages`
appended to a language's file list, no key occurs twice, and the entry of a
path is the record `NewFile(path, language.Name)` after `analyze` with the
language (in one of the states of its worker) whose list holds the path. -/
theorem Analyze_files_index (env : Env) (fs : String → Node) (p : Processor) (r : Result)
    (h : Analyze env fs p = some (Except.ok r)) :
    ∃ languages, initLanguages env fs p = some (languages, WalkErr.nil) ∧
      (∀ path, path ∈ mapKeys r.Files ↔ ∃ kl ∈ languages, path ∈ kl.2.Files) ∧
      (mapKeys r.Files).Nodup ∧
      (∀ path f, (path, f) ∈ r.Files →
        ∃ kl ∈ languages, path ∈ kl.2.Files ∧
          ∃ l1, l1.Name = kl.2.Name ∧ l1.lineComments = kl.2.lineComments ∧
            l1.multiLines = kl.2.multiLines ∧ l1.Files = kl.2.Files ∧
            f = env.analyze (NewFile path kl.2.Name) l1 p.opts) := by
  obtain ⟨st, _, hinit, hr⟩ := Analyze_ok env fs p r h
  obtain ⟨h1, h2, h3⟩ := filesInv_result env p.opts st.result
  subst hr
  refine ⟨st.result, hinit, h2, h1, ?_⟩
  intro path f hf
  obtain ⟨kl, hkl, hp, l1, ⟨a, b, c, d⟩, hfe⟩ := h3 path f (mapGet_of_mem _ _ _ h1 hf)
  exact ⟨kl, hkl, hp, l1, a, b, c, d, hfe⟩

theorem Analyze_files_index_witness :
    Analyze sampleEnv sampleFs sampleProcessor = some (Except.ok sampleResult) ∧
    ∃ languages, initLanguages sampleEnv sampleFs sampleProcessor
        = some (languages, WalkErr.nil) ∧
      (∀ path, path ∈ mapKeys sampleResult.Files ↔ ∃ kl ∈ languages, path ∈ kl.2.Files) ∧
      (mapKeys sampleResult.Files).Nodup ∧
      (∀ path f, (path, f) ∈ sampleResult.Files →
        ∃ kl ∈ languages, path ∈ kl.2.Files ∧
          ∃ l1, l1.Name = kl.2.Name ∧ l1.lineComments = kl.2.lineComments ∧
            l1.multiLines = kl.2.multiLines ∧ l1.Files = kl.2.Files ∧
            f = sampleEnv.analyze (NewFile path kl.2.Name) l1 sampleProcessor.opts) :=
  ⟨by rfl, Analyze_files_index sampleEnv sampleFs sampleProcessor sampleResult (by rfl)⟩

/-- C4 (scenario D): a file whose extension `getExtension` rejects changes
nothing: `Analyze` returns the same over the file system without the file, and
in a returned result the file has no entry in `Files` and is in no language's
file list. -/
theorem Analyze_ignores_rejected_file (env : Env) (fs : String → Node) (p : Processor)
    (target : String) (hrej : env.getExtension target p.opts = none) :
    Analyze env (removeFile env.Join target fs) p = Analyze env fs p ∧
    ∀ r, Analyze env fs p = some (Except.ok r) →
      target ∉ mapKeys r.Files ∧ ∀ kl ∈ r.Languages, target ∉ kl.2.Files := by
  constructor
  · rw [Analyze_eq, Analyze_eq, discovered_remove env p fs target hrej]
  · intro r h
    obtain ⟨st, hst, _, hr⟩ := Analyze_ok env fs p r h
    have hinv := discInv_discovered env fs p st hst
    have hno := discInv_not_listed env p st.result hinv target hrej
    obtain ⟨_, h2, _⟩ := filesInv_result env p.opts st.result
    subst hr
    constructor
    · rw [h2]
      rintro ⟨kl, hkl, hmem⟩
      exact hno kl hkl hmem
    · intro kl hkl
      rw [analyzeLanguages_languages] at hkl
      obtain ⟨x, hx, rfl⟩ := List.mem_map.mp hkl
      simp only
      rw [(aggregate_sameDef env p.opts x.2).2.2.2]
      exact hno x hx

theorem Analyze_ignores_rejected_file_witness :
    sampleEnv.getExtension "a/README" sampleProcessor.opts = none ∧
    removeFile sampleEnv.Join "a/README" sampleFs "a"
      = Node.dir true (Entries.cons "x.go" Node.file (Entries.cons "y.c" Node.file Entries.nil)) ∧
    Analyze sampleEnv sampleFs sampleProcessor = some (Except.ok sampleResult) ∧
    Analyze sampleEnv (removeFile sampleEnv.Join "a/README" sampleFs) sampleProcessor
      = Analyze sampleEnv sampleFs sampleProcessor ∧
    ∀ r, Analyze sampleEnv sampleFs sampleProcessor = some (Except.ok r) →
      "a/README" ∉ mapKeys r.Files ∧ ∀ kl ∈ r.Languages, "a/README" ∉ kl.2.Files :=
  ⟨by rfl, by rfl, by rfl,
    Analyze_ignores_rejected_file sampleEnv sampleFs sampleProcessor "a/README" (by rfl)⟩

/-- C5 (scenario E): with a registry that holds every language of the
catalogue, `Analyze` returns a result and the nil error for every list of
roots and every file system; the result is the one of the run over the roots
that can be read, and it is the empty result when discovery lists no file, in
particular when no root can be read. -/
theorem Analyze_skips_unreadable_roots (env : Env) (fs : String → Node) (p : Processor)
    (hcat : ∀ ext lang, env.Extensions ext = some lang → (p.langs lang).isSome = true) :
    ∃ r, Analyze env fs p = some (Except.ok r) ∧
      Analyze env fs { p with paths := p.paths.filter (fun root => !(fs root).unreadable) }
        = some (Except.ok r) ∧
      (initLanguages env fs p = some ([], WalkErr.nil) → r = emptyResult) ∧
      ((∀ root ∈ p.paths, (fs root).unreadable = true) → r = emptyResult) := by
  obtain ⟨st, hst⟩ := discovered_isSome env fs p hcat
  have hfilter : discovered env fs
      { p with paths := p.paths.filter (fun root => !(fs root).unreadable) }
      = discovered env fs p :=
    fold_allVisits_filter env p fs p.paths _
  have hA : Analyze env fs p = some (Except.ok (analyzeLanguages env p.opts st.result)) := by
    rw [Analyze_eq, hst]; rfl
  refine ⟨analyzeLanguages env p.opts st.result, hA, ?_, ?_, ?_⟩
  · rw [Analyze_eq, hfilter, hst]; rfl
  · intro hinit
    rw [initLanguages_eq, hst] at hinit
    simp at hinit
    rw [hinit]
    rfl
  · intro hall
    have hnil : p.paths.filter (fun root => !(fs root).unreadable) = [] := by
      rw [List.filter_eq_nil_iff]
      intro root hroot
      simp [hall root hroot]
    have hd : discovered env fs p = some { result := [], filesCache := [] } := by
      rw [← hfilter]
      simp only [discovered, hnil, allVisits, foldOpt]
    rw [hst] at hd
    injection hd with hd
    rw [hd]
    rfl

theorem sample_catalogue (ext lang : String) (h : sampleEnv.Extensions ext = some lang) :
    (sampleLangs lang).isSome = true := by
  simp only [sampleEnv, sampleExtensions] at h
  split at h
  · injection h with h; subst h; rfl
  · split at h
    · injection h with h; subst h; rfl
    · cases h

theorem Analyze_skips_unreadable_roots_witness :
    (sampleFs "missing").unreadable = true ∧
    Analyze sampleEnv sampleFs (NewProcessor sampleLangs sampleOptions ["missing", "a"])
      = some (Except.ok sampleResult) ∧
    ∃ r, Analyze sampleEnv sampleFs (NewProcessor sampleLangs sampleOptions ["missing", "a"])
        = some (Except.ok r) ∧
      Analyze sampleEnv sampleFs
        { NewProcessor sampleLangs sampleOptions ["missing", "a"] with
          paths := (NewProcessor sampleLangs sampleOptions ["missing", "a"]).paths.filter
            (fun root => !(sampleFs root).unreadable) }
        = some (Except.ok r) ∧
      (initLanguages sampleEnv sampleFs (NewProcessor sampleLangs sampleOptions ["missing", "a"])
        = some ([], WalkErr.nil) → r = emptyResult) ∧
      ((∀ root ∈ (NewProcessor sampleLangs sampleOptions ["missing", "a"]).paths,
        (sampleFs root).unreadable = true) → r = emptyResult) :=
  ⟨by rfl, by rfl,
    Analyze_skips_unreadable_roots sampleEnv sampleFs
      (NewProcessor sampleLangs sampleOptions ["missing", "a"]) sample_catalogue⟩

/-- C6: with every worker run as one step, the results of `Analyze` do not
depend on the order of the workers: for any two orders of the languages that
`initLanguages` lists, `Total`, the aggregate of every language and the entry
of every path in `Files` are the same; `Analyze` itself returns the result of
one such order. -/
theorem Analyze_order_independent (env : Env) (fs : String → Node) (p : Processor)
    (languages order1 order2 : List (String × Language))
    (hinit : initLanguages env fs p = some (languages, WalkErr.nil))
    (h1 : order1.Perm languages) (h2 : order2.Perm languages) :
    Analyze env fs p = some (Except.ok (analyzeLanguages env p.opts languages)) ∧
    (analyzeLanguages env p.opts order1).Total = (analyzeLanguages env p.opts order2).Total ∧
    (∀ k, mapGet (analyzeLanguages env p.opts order1).Languages k
        = mapGet (analyzeLanguages env p.opts order2).Languages k) ∧
    (∀ path, mapGet (analyzeLanguages env p.opts order1).Files path
        = mapGet (analyzeLanguages env p.opts order2).Files path) := by
  have hA : Analyze env fs p = some (Except.ok (analyzeLanguages env p.opts languages)) := by
    simp [Analyze, hinit]
  obtain ⟨st, hst, hinit2, _⟩ := Analyze_ok env fs p _ hA
  rw [hinit] at hinit2
  have hl : languages = st.result := by
    injection hinit2 with h; exact (Prod.mk.inj h).1
  have hinv : DiscInv env p languages := hl ▸ discInv_discovered env fs p st hst
  have h12 : order1.Perm order2 := h1.trans h2.symm
  have hn1 : (mapKeys order1).Nodup := (h1.map Prod.fst).nodup_iff.mpr hinv.1
  refine ⟨hA, total_perm env p.opts order1 order2 h12, ?_, ?_⟩
  · intro k
    exact languages_perm env p.opts order1 order2 h12 hn1 k
  · intro path
    refine files_perm env p.opts order1 order2 h12 ?_ path
    intro q a ha b hb
    exact discInv_disjoint env p languages hinv q a (h1.mem_iff.mp ha) b (h1.mem_iff.mp hb)

theorem Analyze_order_independent_witness :
    initLanguages sampleEnv sampleFs sampleProcessor = some (sampleLanguages, WalkErr.nil) ∧
    Analyze sampleEnv sampleFs sampleProcessor
      = some (Except.ok (analyzeLanguages sampleEnv sampleProcessor.opts sampleLanguages)) ∧
    (analyzeLanguages sampleEnv sampleProcessor.opts sampleLanguages.reverse).Total
      = (analyzeLanguages sampleEnv sampleProcessor.opts sampleLanguages).Total ∧
    (∀ k, mapGet (analyzeLanguages sampleEnv sampleProcessor.opts sampleLanguages.reverse).Languages k
        = mapGet (analyzeLanguages sampleEnv sampleProcessor.opts sampleLanguages).Languages k) ∧
    (∀ path, mapGet (analyzeLanguages sampleEnv sampleProcessor.opts sampleLanguages.reverse).Files path
        = mapGet (analyzeLanguages sampleEnv sampleProcessor.opts sampleLanguages).Files path) :=
  ⟨by rfl, Analyze_order_independent sampleEnv sampleFs sampleProcessor sampleLanguages
    sampleLanguages.reverse sampleLanguages (by rfl) (List.reverse_perm _) (List.Perm.refl _)⟩

/-- C1, at the root `a` given twice: `Analyze` returns a result in which the
aggregate of Go counts two files and 34 bytes while `Files` holds one Go record
of 17 bytes, so the aggregates are not the sums over the records of `Files`. -/
theorem Analyze_root_twice_counts_twice :
    Analyze sampleEnv sampleFs sampleTwice = some (Except.ok sampleTwiceResult) ∧
    (sampleTwiceResult.Languages.map (fun kl => (kl.2.Name, kl.2.Total, kl.2.Size)))
      = [("Go", 2, 34), ("C", 2, 60)] ∧
    (sampleTwiceResult.Files.map (fun kf => (kf.1, kf.2.Lang, kf.2.Size)))
      = [("a/x.go", "Go", 17), ("a/y.c", "C", 30)] ∧
    ¬ AggregatesMatchIndex sampleEnv sampleTwiceResult := by
  refine ⟨by rfl, by rfl, by rfl, ?_⟩
  intro h
  have := (h ("Go", _) (List.mem_cons_self _ _)).1
  revert this
  decide

/-- C7, at two languages of one file each: after the first worker alone has
run, `total` is written although the second worker has not finished and
`wg.Wait` cannot return; there is a state in which both workers are about to
write `total.Size` and nobody holds the mutex; and the schedule through that
state ends with `Total.Size` 30 where the serial schedule gives 47. -/
theorem workers_write_total_before_join :
    ((runSchedule sampleEnv sampleOptions (spawn sampleEnv sampleLanguages) (solo 0 16)).map
        (fun s => (s.total.Size, s.total.Total, s.joined)) = some (17, 1, false)) ∧
    ((runSchedule sampleEnv sampleOptions (spawn sampleEnv sampleLanguages)
          (solo 0 4 ++ solo 1 4 ++ [0, 1])).map
        (fun s => (s.next 0, s.next 1, s.holder, s.joined))
      = some (some (Action.storeTotal Counter.Size), some (Action.storeTotal Counter.Size),
          none, false)) ∧
    ((runSchedule sampleEnv sampleOptions (spawn sampleEnv sampleLanguages) serialSchedule).bind
        Sched.result = some sampleResult) ∧
    (((runSchedule sampleEnv sampleOptions (spawn sampleEnv sampleLanguages) racySchedule).bind
        Sched.result).map (fun r => (r.Total.Size, r.Languages.map (fun kl => kl.2.Size)))
      = some (30, [17, 30])) := by
  refine ⟨by rfl, by rfl, by rfl, by rfl⟩

theorem notMatchDirStep_keeps (cenv : CliEnv) (c : CmdOptions) (opts o1 : Options)
    (h : notMatchDirStep cenv c opts = some o1) : o1.ExcludeExts = opts.ExcludeExts := by
  unfold notMatchDirStep at h
  split at h
  · split at h
    · cases h
    · injection h with h; rw [← h]
  · injection h with h; rw [← h]

theorem matchDirStep_keeps (cenv : CliEnv) (c : CmdOptions) (opts o1 : Options)
    (h : matchDirStep cenv c opts = some o1) : o1.ExcludeExts = opts.ExcludeExts := by
  unfold matchDirStep at h
  split at h
  · split at h
    · cases h
    · injection h with h; rw [← h]
  · injection h with h; rw [← h]

/-- C8: when `MatchDir` or `NotMatchDir` is not empty and does not compile,
`fillOptions` panics and `Run` does not reach `Analyze`; when each pattern is
empty or compiles, `fillOptions` returns options that hold every non-empty
pattern compiled and leave the field of an empty pattern unset. -/
theorem fillOptions_patterns (cenv : CliEnv) (env : Env) (cmdOpts : CmdOptions)
    (languages : String → Option Language) :
    (((cmdOpts.NotMatchDir ≠ "" ∧ cenv.validRegexp cmdOpts.NotMatchDir = false)
        ∨ (cmdOpts.MatchDir ≠ "" ∧ cenv.validRegexp cmdOpts.MatchDir = false)) →
      fillOptions cenv env cmdOpts languages = none ∧
      ∀ fs args out, Run cenv env fs cmdOpts args ≠ RunOutcome.analysed out) ∧
    (((cmdOpts.NotMatchDir = "" ∨ cenv.validRegexp cmdOpts.NotMatchDir = true)
        ∧ (cmdOpts.MatchDir = "" ∨ cenv.validRegexp cmdOpts.MatchDir = true)) →
      ∃ opts, fillOptions cenv env cmdOpts languages = some opts ∧
        opts.NotMatchDir
          = (if cmdOpts.NotMatchDir = "" then none else some ⟨cmdOpts.NotMatchDir⟩) ∧
        opts.MatchDir = (if cmdOpts.MatchDir = "" then none else some ⟨cmdOpts.MatchDir⟩)) := by
  obtain ⟨f1, f2, _, _⟩ := sortChecked_fields cenv cmdOpts
  constructor
  · intro h
    have hnone : ∀ langs, fillOptions cenv env cmdOpts langs = none := by
      intro langs
      rw [← f1, ← f2] at h
      unfold fillOptions
      simp only
      rcases patterns_panic cenv (sortChecked cenv cmdOpts) _ h with h1 | ⟨o1, h1, h2⟩
      · rw [h1]
      · rw [h1]; simp only; rw [h2]
    refine ⟨hnone languages, ?_⟩
    intro fs args out
    unfold Run
    split
    · intro hc; cases hc
    · simp only [hnone]
      intro hc; cases hc
  · rintro ⟨hn, hm⟩
    rw [← f1] at hm
    rw [← f2] at hn
    obtain ⟨o1, o2, h1, h2, _, h4, h5⟩ := patterns_ok cenv (sortChecked cenv cmdOpts)
      ((Split (sortChecked cenv cmdOpts).ExcludeExt ',').foldl (excludeStep env)
        { NewOptions with ByFile := (sortChecked cenv cmdOpts).ByFile,
                          Debug := (sortChecked cenv cmdOpts).Debug,
                          SkipDuplicated := (sortChecked cenv cmdOpts).SkipDuplicated,
                          SortKey := (sortChecked cenv cmdOpts).SortKey }) hn hm
    refine ⟨_, by unfold fillOptions; simp only; rw [h1]; simp only; rw [h2], ?_, ?_⟩
    · rw [(includeFold_keeps _ _ _).2.1, h4, (excludeFold_patterns _ _ _).2, f2]
      rfl
    · rw [(includeFold_keeps _ _ _).1, h5, (excludeFold_patterns _ _ _).1, f1]
      rfl

theorem fillOptions_patterns_witness :
    (sampleBadPattern.MatchDir ≠ "" ∧ sampleCli.validRegexp sampleBadPattern.MatchDir = false) ∧
    fillOptions sampleCli sampleEnv sampleBadPattern sampleLangs = none ∧
    (∀ fs args out,
      Run sampleCli sampleEnv fs sampleBadPattern args ≠ RunOutcome.analysed out) ∧
    ∃ opts, fillOptions sampleCli sampleEnv sampleGoodPattern sampleLangs = some opts ∧
      opts.NotMatchDir = some ⟨"vendor"⟩ ∧ opts.MatchDir = none :=
  ⟨by decide,
   ((fillOptions_patterns sampleCli sampleEnv sampleBadPattern sampleLangs).1
      (Or.inr (by decide))).1,
   ((fillOptions_patterns sampleCli sampleEnv sampleBadPattern sampleLangs).1
      (Or.inr (by decide))).2,
   (fillOptions_patterns sampleCli sampleEnv sampleGoodPattern sampleLangs).2
      ⟨Or.inr (by decide), Or.inl (by decide)⟩⟩

/-- C9 as stated fails: with `--exclude-ext=go` the excluded set is `["Go"]`,
which does not hold the listed and known extension `go`. -/
theorem excludeExts_not_extensions :
    fillOptions sampleCli sampleEnv sampleExclude sampleLangs
      = some { sampleOptions with ExcludeExts := ["Go"] } ∧
    ¬ ExcludeExtsAreExtensions sampleCli sampleEnv sampleExclude sampleLangs := by
  refine ⟨by rfl, ?_⟩
  intro h
  have := h { sampleOptions with ExcludeExts := ["Go"] } (by rfl) "go"
  revert this
  decide

/-- C9 amended: the excluded set of the options that `fillOptions` returns
holds exactly the catalogue values `Extensions[ext]` of the listed entries
`ext` that are keys of `Extensions`. -/
theorem fillOptions_excludeExts (cenv : CliEnv) (env : Env) (cmdOpts : CmdOptions)
    (languages : String → Option Language) (opts : Options)
    (h : fillOptions cenv env cmdOpts languages = some opts) :
    ∀ x, x ∈ opts.ExcludeExts
      ↔ ∃ ext ∈ Split cmdOpts.ExcludeExt ',', env.Extensions ext = some x := by
  obtain ⟨_, _, f3, _⟩ := sortChecked_fields cenv cmdOpts
  unfold fillOptions at h
  simp only at h
  split at h
  · cases h
  · rename_i o1 h1
    split at h
    · cases h
    · rename_i o2 h2
      injection h with h
      intro x
      rw [← h, (includeFold_keeps _ _ _).2.2, matchDirStep_keeps _ _ _ _ h2,
        notMatchDirStep_keeps _ _ _ _ h1, excludeFold_mem, f3]
      simp [NewOptions]

theorem fillOptions_excludeExts_witness :
    fillOptions sampleCli sampleEnv sampleExclude sampleLangs
      = some { sampleOptions with ExcludeExts := ["Go"] } ∧
    ∀ x, x ∈ ({ sampleOptions with ExcludeExts := ["Go"] } : Options).ExcludeExts
      ↔ ∃ ext ∈ Split sampleExclude.ExcludeExt ',', sampleEnv.Extensions ext = some x :=
  ⟨by rfl, fillOptions_excludeExts sampleCli sampleEnv sampleExclude sampleLangs _ (by rfl)⟩

end GoCodeAnalyser
